import Mathlib

/-!
Bitboard Othello core (`c_othello_bit.cpp`): embedding and verified properties.

The board is two 64-bit occupancy masks.  Unsigned 64-bit values are modelled
as natural numbers below `2 ^ 64`; C `int` rows, columns and players are
modelled as integers.  Loops of the source that are not syntactically bounded
carry a fuel argument and return `none` when the fuel runs out, so that every
statement "the function returns ..." is a statement about a `some` result.
-/

namespace COthello

/-! ## Data model -/

/-- Player constant `BLACK` of the source. -/
def BLACK : Int := 1

/-- Player constant `WHITE` of the source. -/
def WHITE : Int := 2

/-- The table of the eight scan directions, in the order of the source. -/
def DIRECTION : List (Int × Int) :=
  [(-1, 0), (1, 0), (0, -1), (0, 1), (-1, -1), (-1, 1), (1, -1), (1, 1)]

/-- The struct `OthelloBitBoard`: bit `i` of a mask is square `i = row * 8 + col`. -/
structure OthelloBitBoard where
  blackBB : Nat
  whiteBB : Nat
  deriving DecidableEq, Repr

/-- Index of the bit of square `(row, col)`. -/
def rc_to_bit (row col : Int) : Int := row * 8 + col

/-- The mask `1ULL << rc_to_bit(row, col)`, as a 64-bit value.  The source
only calls it with `0 <= row, col < 8` (anything else is undefined there). -/
def mask_rc (row col : Int) : Nat := (1 <<< (rc_to_bit row col).toNat) % 2 ^ 64

/-- Whether the bit of `(row, col)` is set in the mask `bb`. -/
def is_occupied (bb : Nat) (row col : Int) : Bool := (bb &&& mask_rc row col) != 0

/-- Whether `(row, col)` holds no disc of either colour. -/
def is_empty (board : OthelloBitBoard) (row col : Int) : Bool :=
  let occ := board.blackBB ||| board.whiteBB
  (occ &&& mask_rc row col) == 0

/-- The board of `initial_board_cpp`: the default board is all zero, then four bits are set. -/
def initial_board_cpp : OthelloBitBoard :=
  let board : OthelloBitBoard := { blackBB := 0, whiteBB := 0 }
  let board := { board with blackBB := board.blackBB ||| mask_rc 3 3 }
  let board := { board with blackBB := board.blackBB ||| mask_rc 4 4 }
  let board := { board with whiteBB := board.whiteBB ||| mask_rc 3 4 }
  let board := { board with whiteBB := board.whiteBB ||| mask_rc 4 3 }
  board

/-! ## Flip resolution -/

/-- The inner `while` loop of `compute_flip` for one direction `(dr, dc)`,
entered at `(r, c)` with the candidate mask `mask`.  It returns the final
`(mask, canFlip)`; `none` means the loop was still running when the fuel was used up. -/
def scan (enemyBB selfBB : Nat) (dr dc : Int) : Nat → Int → Int → Nat → Option (Nat × Bool)
  | 0, _, _, _ => none
  | fuel + 1, r, c, mask =>
    if r ≥ 0 ∧ r < 8 ∧ c ≥ 0 ∧ c < 8 then
      if is_occupied enemyBB r c then
        scan enemyBB selfBB dr dc fuel (r + dr) (c + dc) (mask ||| mask_rc r c)
      else
        some (mask, is_occupied selfBB r c)
    else
      some (mask, false)

/-- Fuel given to each directional scan: a ray that starts on the board has at
most seven further squares on it, and one more test ends the loop. -/
def scanFuel : Nat := 8

/-- One iteration of the `for` loop over `DIRECTION` in `compute_flip`. -/
def flip_step (enemyBB selfBB : Nat) (row col : Int) (flips : Nat) (dir : Int × Int) :
    Option Nat :=
  match scan enemyBB selfBB dir.1 dir.2 scanFuel (row + dir.1) (col + dir.2) 0 with
  | none => none
  | some (mask, canFlip) => some (if canFlip && mask != 0 then flips ||| mask else flips)

/-- The function `compute_flip`: the mask of discs that `player` turns over by playing `(row, col)`. -/
def compute_flip (board : OthelloBitBoard) (player row col : Int) : Option Nat :=
  let opponent := if player = BLACK then WHITE else BLACK
  let selfBB := if player = BLACK then board.blackBB else board.whiteBB
  let enemyBB := if opponent = BLACK then board.blackBB else board.whiteBB
  if !is_empty board row col then
    some 0
  else
    DIRECTION.foldlM (flip_step enemyBB selfBB row col) 0

/-- The function `can_put`: the move turns over at least one disc. -/
def can_put (board : OthelloBitBoard) (player row col : Int) : Option Bool :=
  (compute_flip board player row col).map (fun flips => flips != 0)

/-! ## Move enumeration

`get_valid_moves_cpp` runs its row loop inside `#pragma omp parallel` with
`#pragma omp for nowait`: the rows `0 .. 7` are distributed over the workers,
each worker fills a private `local_moves`, and each worker appends its list to
`moves` inside `#pragma omp critical`, that is, in the order in which the
workers reach the critical section.  A run is therefore described by a
schedule: the list of the workers in the order in which they append, each
given by the rows it executed, in the order it executed them.
-/

/-- The values `0 .. 7` taken by the loop variables `r` and `c`, in loop order. -/
def loopRange : List Int := [0, 1, 2, 3, 4, 5, 6, 7]

/-- The body of the loop over `c`: the square `(r, c)` is appended to the
worker's list when `can_put` holds. -/
def row_step (board : OthelloBitBoard) (player r : Int) (acc : List (Int × Int)) (c : Int) :
    Option (List (Int × Int)) :=
  match can_put board player r c with
  | none => none
  | some ok => some (if ok then acc ++ [(r, c)] else acc)

/-- The loop `for(c = 0; c < 8; c++)` of one row `r`, run on the worker's list `acc`. -/
def scan_row (board : OthelloBitBoard) (player r : Int) (acc : List (Int × Int)) :
    Option (List (Int × Int)) :=
  loopRange.foldlM (row_step board player r) acc

/-- The private list `local_moves` of a worker that executes the rows `rows`. -/
def local_moves (board : OthelloBitBoard) (player : Int) (rows : List Int) :
    Option (List (Int × Int)) :=
  rows.foldlM (fun acc r => scan_row board player r acc) []

/-- The critical section of one worker: its local list is inserted at the end of `moves`. -/
def merge_step (board : OthelloBitBoard) (player : Int) (moves : List (Int × Int))
    (rows : List Int) : Option (List (Int × Int)) :=
  match local_moves board player rows with
  | none => none
  | some loc => some (moves ++ loc)

/-- The function `get_valid_moves_cpp` under the schedule `sched`: the local
lists are appended to `moves` in the order of `sched`. -/
def get_valid_moves_cpp (board : OthelloBitBoard) (player : Int) (sched : List (List Int)) :
    Option (List (Int × Int)) :=
  sched.foldlM (merge_step board player) []

/-- The schedule of a run with a single worker: it executes the rows in loop order. -/
def oneWorker : List (List Int) := [loopRange]

/-- A schedule is valid when every row `0 .. 7` is executed exactly once, by exactly one worker. -/
def ValidSchedule (sched : List (List Int)) : Prop :=
  List.Perm sched.flatten loopRange

instance (sched : List (List Int)) : Decidable (ValidSchedule sched) := by
  unfold ValidSchedule; infer_instance

/-! ## Applying a move -/

/-- Bitwise complement `~x` of a 64-bit value. -/
def not64 (x : Nat) : Nat := x ^^^ (2 ^ 64 - 1)

/-- The function `put_cpp`. -/
def put_cpp (board : OthelloBitBoard) (player : Int) (move : Int × Int) :
    Option OthelloBitBoard :=
  let row := move.1
  let col := move.2
  match compute_flip board player row col with
  | none => none
  | some flipMask =>
    if flipMask == 0 && !is_empty board row col then
      some board
    else
      let place := mask_rc row col
      if player = BLACK then
        some { blackBB := (board.blackBB ||| place) ||| flipMask,
               whiteBB := board.whiteBB &&& not64 flipMask }
      else
        some { whiteBB := (board.whiteBB ||| place) ||| flipMask,
               blackBB := board.blackBB &&& not64 flipMask }

/-- A sequence of `put_cpp` calls, each applied to the board returned by the one before. -/
def put_seq (board : OthelloBitBoard) : List (Int × Int × Int) → Option OthelloBitBoard
  | [] => some board
  | (player, move) :: rest =>
    match put_cpp board player move with
    | none => none
    | some next => put_seq next rest

/-! ## Counting discs -/

/-- The function `popcount64`, in the branch compiled under `__GNUC__`:
`__builtin_popcountll(x)` is the number of one bits among the 64 bits of `x`. -/
def popcount64 (x : Nat) : Nat :=
  ((List.range 64).filter (fun i => x.testBit i)).length

/-- The dictionary returned by `count_discs_cpp`. -/
structure DiscCount where
  black : Nat
  white : Nat
  deriving DecidableEq, Repr

/-- The function `count_discs_cpp`. -/
def count_discs_cpp (board : OthelloBitBoard) : DiscCount :=
  let b := popcount64 board.blackBB
  let w := popcount64 board.whiteBB
  { black := b, white := w }

/-! ## Turn management -/

/-- The function `change_turn_cpp`. -/
def change_turn_cpp (player : Int) : Int := if player = BLACK then WHITE else BLACK

/-! ## The grid of legal squares

`get_valid_board_cpp` allocates an 8x8 `int` array without initialising it and
writes every cell inside `#pragma omp parallel for` over the rows.  The array
is a map from `(r, c)` to the stored value; its content before the loop is a
parameter, and so is the order `rows` in which the row iterations take effect.
-/

/-- The assignment `buf(r, c) = v`. -/
def grid_write (buf : Int → Int → Int) (r c v : Int) : Int → Int → Int :=
  fun r' c' => if r' = r ∧ c' = c then v else buf r' c'

/-- The body of the loop over `c` in `get_valid_board_cpp`. -/
def board_cell (board : OthelloBitBoard) (player r : Int) (buf : Int → Int → Int) (c : Int) :
    Option (Int → Int → Int) :=
  match can_put board player r c with
  | none => none
  | some ok => some (grid_write buf r c (if ok then 1 else 0))

/-- One iteration of the loop over `r` in `get_valid_board_cpp`. -/
def board_row (board : OthelloBitBoard) (player : Int) (buf : Int → Int → Int) (r : Int) :
    Option (Int → Int → Int) :=
  loopRange.foldlM (board_cell board player r) buf

/-- The function `get_valid_board_cpp`, the rows being executed in the order
`rows` on the freshly allocated array `init`. -/
def get_valid_board_cpp (board : OthelloBitBoard) (player : Int) (rows : List Int)
    (init : Int → Int → Int) : Option (Int → Int → Int) :=
  rows.foldlM (board_row board player) init

/-! ## Feature encoding

`proc_board_cpp` fills a `float` array of shape (1, 3, 8, 8); the first index
is always 0 and is left out.  The only values stored are the literals `0.0f`
and `1.0f`, written here as the integers 0 and 1.
-/

/-- The assignment `buf(0, ch, r, c) = v`. -/
def tensor_write (buf : Int → Int → Int → Int) (ch r c v : Int) : Int → Int → Int → Int :=
  fun ch' r' c' => if ch' = ch ∧ r' = r ∧ c' = c then v else buf ch' r' c'

/-- The first loop nest of `proc_board_cpp`: all three channels are set to zero. -/
def proc_zero (buf : Int → Int → Int → Int) : Int → Int → Int → Int :=
  ([0, 1, 2] : List Int).foldl
    (fun buf c => loopRange.foldl
      (fun buf r => loopRange.foldl (fun buf col => tensor_write buf c r col 0) buf) buf)
    buf

/-- The loop nests for black (`ch = 0`) and white (`ch = 1`): the cells of the
squares set in `bb` are set to one. -/
def proc_plane (bb : Nat) (ch : Int) (buf : Int → Int → Int → Int) : Int → Int → Int → Int :=
  loopRange.foldl
    (fun buf r => loopRange.foldl
      (fun buf c => if is_occupied bb r c then tensor_write buf ch r c 1 else buf) buf)
    buf

/-- The loop nest of the turn channel, run when `player == BLACK`. -/
def proc_turn (buf : Int → Int → Int → Int) : Int → Int → Int → Int :=
  loopRange.foldl
    (fun buf r => loopRange.foldl (fun buf c => tensor_write buf 2 r c 1) buf) buf

/-- The function `proc_board_cpp`, on the freshly allocated array `init`. -/
def proc_board_cpp (board : OthelloBitBoard) (player : Int) (init : Int → Int → Int → Int) :
    Int → Int → Int → Int :=
  let buf := proc_zero init
  let buf := proc_plane board.blackBB 0 buf
  let buf := proc_plane board.whiteBB 1 buf
  if player = BLACK then proc_turn buf else buf

/-! ## Random playouts

A playout draws from a random generator and calls `get_valid_moves_cpp`, whose
output order depends on the schedule of its workers.  Both are given by an
environment `env`: for the loop iteration number `t`, `(env t).1` is the
schedule of the enumeration and `(env t).2` is the value drawn;
`uniform_int_distribution<int>(0, size - 1)` turns it into an index below `size`.
-/

/-- The verdict at the end of `single_playout`: `BLACK`, `WHITE`, or 0 for a draw. -/
def judge (board : OthelloBitBoard) : Int :=
  let b := popcount64 board.blackBB
  let w := popcount64 board.whiteBB
  if b > w then BLACK
  else if b < w then WHITE
  else 0

/-- The `while(true)` loop of `single_playout`, entered at iteration `t` with
the state `(board, player, passCount)`.  It returns the board on which the
loop breaks, and with it the record `hist` of the moves applied so far, each
with the board and the mover it was applied for; the source keeps no such
record, it only serves to speak about the run.  `none` means the loop was
still running when the fuel was used up. -/
def playout_loop (env : Nat → List (List Int) × Nat) :
    Nat → Nat → OthelloBitBoard → Int → Nat → List (OthelloBitBoard × Int × (Int × Int)) →
      Option (OthelloBitBoard × List (OthelloBitBoard × Int × (Int × Int)))
  | 0, _, _, _, _, _ => none
  | fuel + 1, t, board, player, passCount, hist =>
    match get_valid_moves_cpp board player (env t).1 with
    | none => none
    | some moves =>
      if h : moves = [] then
        if passCount + 1 ≥ 2 then
          some (board, hist)
        else
          playout_loop env fuel (t + 1) board (change_turn_cpp player) (passCount + 1) hist
      else
        let mv := moves.get ⟨(env t).2 % moves.length,
          Nat.mod_lt _ (List.length_pos.2 h)⟩
        match put_cpp board player mv with
        | none => none
        | some next =>
          playout_loop env fuel (t + 1) next (change_turn_cpp player) 0
            (hist ++ [(board, player, mv)])

/-- The run of `single_playout`: final board and record of the moves. -/
def playout_run (fuel : Nat) (env : Nat → List (List Int) × Nat) (startBoard : OthelloBitBoard)
    (startPlayer : Int) :
    Option (OthelloBitBoard × List (OthelloBitBoard × Int × (Int × Int))) :=
  playout_loop env fuel 0 startBoard startPlayer 0 []

/-- The function `single_playout`. -/
def single_playout (fuel : Nat) (env : Nat → List (List Int) × Nat)
    (startBoard : OthelloBitBoard) (startPlayer : Int) : Option Int :=
  match playout_run fuel env startBoard startPlayer with
  | none => none
  | some fin => some (judge fin.1)

/-- The body of the trial loop of `simulate_game_cpp`: trial `i` runs with its own environment. -/
def trial_step (fuel : Nat) (envs : Nat → Nat → List (List Int) × Nat)
    (board : OthelloBitBoard) (startPlayer : Int) (winCount : Int) (i : Nat) : Option Int :=
  match single_playout fuel (envs i) board startPlayer with
  | none => none
  | some result => some (if result = startPlayer then winCount + 1 else winCount)

/-- Rounding of a rational to the nearest integer, a tie going to the even one. -/
def round_half_even (x : ℚ) : Int :=
  let f := ⌊x⌋
  let r := x - f
  if r < 1 / 2 then f
  else if r > 1 / 2 then f + 1
  else if f % 2 = 0 then f else f + 1

/-- The binary exponent of a non-zero rational `q`: the `e` with `2 ^ e ≤ |q| < 2 ^ (e + 1)`. -/
def floor_log2 (q : ℚ) : Int :=
  let d : Int := (Nat.log2 q.num.natAbs : Int) - (Nat.log2 q.den : Int)
  if (2 : ℚ) ^ d ≤ |q| then d else d - 1

/-- The `double` (IEEE 754 binary64, round to nearest, ties to even) that
represents the real number `q`: zero for zero, and otherwise the multiple of
`2 ^ (e - 52)` nearest to `q`, a 53-bit significand at the exponent `e` of `q`.
This is the rounding of the normal range `2 ^ (-1022) ≤ |q| < 2 ^ 1024`; the
quotient of two C `int` values is zero or lies between `2 ^ (-31)` and `2 ^ 31`. -/
def to_double (q : ℚ) : ℚ :=
  if q = 0 then 0
  else
    let ulp := (2 : ℚ) ^ (floor_log2 q - 52)
    (round_half_even (q / ulp) : ℚ) * ulp

/-- The expression `double(a) / double(b)` on two `int` values: both
conversions are exact, and the division returns the correctly rounded quotient. -/
def double_div (a b : Int) : ℚ := to_double ((a : ℚ) / (b : ℚ))

/-- The function `simulate_game_cpp`.  The trials `0 .. num_sim - 1` add to
`winCount` under `reduction(+:winCount)`, a sum that does not depend on the
distribution of the trials over the workers.  The value returned is the
`double` computed by `double(winCount) / double(num_sim)`, given as the
rational number that this `double` represents. -/
def simulate_game_cpp (fuel : Nat) (envs : Nat → Nat → List (List Int) × Nat)
    (board : OthelloBitBoard) (startPlayer num_sim : Int) : Option ℚ :=
  if num_sim ≤ 0 then some 0
  else
    match (List.range num_sim.toNat).foldlM (trial_step fuel envs board startPlayer) 0 with
    | none => none
    | some winCount => some (double_div winCount num_sim)

/-! ## Vocabulary of the specification -/

/-- A square of the board: row and column both in `[0, 7]`. -/
def InRange (row col : Int) : Prop := 0 ≤ row ∧ row < 8 ∧ 0 ≤ col ∧ col < 8

instance (row col : Int) : Decidable (InRange row col) := by
  unfold InRange; infer_instance

/-- The two occupancy masks share no square. -/
def Disjoint (board : OthelloBitBoard) : Prop := board.blackBB &&& board.whiteBB = 0

instance (board : OthelloBitBoard) : Decidable (Disjoint board) := by
  unfold Disjoint; infer_instance

/-- The occupancy mask of `who`, with the same selection as in the source (`BLACK` or else white). -/
def maskOf (board : OthelloBitBoard) (who : Int) : Nat :=
  if who = BLACK then board.blackBB else board.whiteBB

/-- The opponent of `player`, as computed at the head of `compute_flip`. -/
def opponentOf (player : Int) : Int := if player = BLACK then WHITE else BLACK

/-- Square `(row, col)` is on the board and carries a disc of `who`. -/
def Owns (board : OthelloBitBoard) (who row col : Int) : Prop :=
  InRange row col ∧ is_occupied (maskOf board who) row col = true

/-- The reference flip set, in the words of the specification: bit `t` belongs
to it when for one of the eight directions `d` and a run length `k ≥ 1` the
squares `square + 1*d .. square + k*d` are all on the board and owned by the
opponent, `t` is the bit of one of them, and `square + (k+1)*d` is on the board
and owned by the mover. -/
def InRefFlipSet (board : OthelloBitBoard) (player row col : Int) (t : Nat) : Prop :=
  ∃ d ∈ DIRECTION, ∃ k : Nat, 1 ≤ k ∧
    (∀ i : Nat, 1 ≤ i → i ≤ k → Owns board (opponentOf player) (row + i * d.1) (col + i * d.2)) ∧
    (∃ j : Nat, 1 ≤ j ∧ j ≤ k ∧ (t : Int) = rc_to_bit (row + j * d.1) (col + j * d.2)) ∧
    Owns board player (row + (k + 1 : Nat) * d.1) (col + (k + 1 : Nat) * d.2)

/-- The key `r * 8 + c` by which row-major order compares two squares. -/
def squareIndex (sq : Int × Int) : Int := rc_to_bit sq.1 sq.2

/-- A list of squares is in row-major order: strictly increasing `r * 8 + c`. -/
def RowMajor (moves : List (Int × Int)) : Prop :=
  moves.Pairwise (fun a b => squareIndex a < squareIndex b)

instance (moves : List (Int × Int)) : Decidable (RowMajor moves) := by
  unfold RowMajor; infer_instance

/-- A sequence of moves `(mover, square)` is legal from `board`: each square is
on the board and `can_put` holds for it on the board it is applied to, the
boards being produced by `put_cpp`. -/
def legalSeq (board : OthelloBitBoard) : List (Int × Int × Int) → Bool
  | [] => true
  | (player, move) :: rest =>
    decide (InRange move.1 move.2) && (can_put board player move.1 move.2 == some true) &&
      match put_cpp board player move with
      | none => false
      | some next => legalSeq next rest

/-- The board with the two colours exchanged. -/
def swap_colors (board : OthelloBitBoard) : OthelloBitBoard :=
  { blackBB := board.whiteBB, whiteBB := board.blackBB }

/-- The occupied set `blackBB | whiteBB` of a board. -/
def occupied (board : OthelloBitBoard) : Nat := board.blackBB ||| board.whiteBB

/-- The mover `player` has no legal square on `board`: the enumeration returns
the empty list, under every schedule. -/
def NoMoves (board : OthelloBitBoard) (player : Int) : Prop :=
  ∀ sched : List (List Int), ValidSchedule sched →
    get_valid_moves_cpp board player sched = some []

/-- A recorded move `(board, mover, square)` of a playout under `env` was drawn
from the list that `get_valid_moves_cpp` returned for the mover on that board
in some iteration of the loop. -/
def DrawnFromValidMoves (env : Nat → List (List Int) × Nat)
    (e : OthelloBitBoard × Int × (Int × Int)) : Prop :=
  ∃ (t : Nat) (moves : List (Int × Int)),
    get_valid_moves_cpp e.1 e.2.1 (env t).1 = some moves ∧ e.2.2 ∈ moves

/-- A recorded move `(board, mover, square)` was played on an empty square of
the board, and `put_cpp` returned a board whose occupied set is the old one
together with that square. -/
def FillsEmptySquare (e : OthelloBitBoard × Int × (Int × Int)) : Prop :=
  InRange e.2.2.1 e.2.2.2 ∧ is_empty e.1 e.2.2.1 e.2.2.2 = true ∧
  ∃ next, put_cpp e.1 e.2.1 e.2.2 = some next ∧
    (∀ t : Nat, t < 64 → (occupied next).testBit t =
      ((occupied e.1).testBit t || decide ((t : Int) = rc_to_bit e.2.2.1 e.2.2.2))) ∧
    popcount64 (occupied next) = popcount64 (occupied e.1) + 1

/-! ## Auxiliary predicates of the proofs -/

/-- The test `can_put(board, player, r, c)` of the enumeration, as a Boolean. -/
def legalAt (board : OthelloBitBoard) (player r c : Int) : Bool :=
  can_put board player r c == some true

/-- The legal squares of row `r`, by increasing column. -/
def rowList (board : OthelloBitBoard) (player r : Int) : List (Int × Int) :=
  (loopRange.filter (legalAt board player r)).map (fun c => (r, c))


/-- The squares `1 .. k` of the ray from `(row, col)` in direction `d` are on
the board and set in the mask `bb`. -/
def RunOf (bb : Nat) (row col : Int) (d : Int × Int) (k : Nat) : Prop :=
  ∀ j : Nat, 1 ≤ j → j ≤ k →
    InRange (row + j * d.1) (col + j * d.2) ∧ is_occupied bb (row + j * d.1) (col + j * d.2) = true

/-- The set bits of `m` are exactly the bits of the squares `1 .. k` of the ray. -/
def RunBits (row col : Int) (d : Int × Int) (k m : Nat) : Prop :=
  ∀ t : Nat, m.testBit t = true ↔
    ∃ j : Nat, 1 ≤ j ∧ j ≤ k ∧ (t : Int) = rc_to_bit (row + j * d.1) (col + j * d.2)

/-- Bit `t` is turned over along direction `d`: it lies in a run of enemy
squares that is closed by a square of the mover. -/
def DirFlip (enemyBB selfBB : Nat) (row col : Int) (d : Int × Int) (t : Nat) : Prop :=
  ∃ k : Nat, 1 ≤ k ∧ RunOf enemyBB row col d k ∧
    (∃ j : Nat, 1 ≤ j ∧ j ≤ k ∧ (t : Int) = rc_to_bit (row + j * d.1) (col + j * d.2)) ∧
    InRange (row + (k + 1 : Nat) * d.1) (col + (k + 1 : Nat) * d.2) ∧
    is_occupied selfBB (row + (k + 1 : Nat) * d.1) (col + (k + 1 : Nat) * d.2) = true

end COthello

namespace COthello

/-! ## Bit-level lemmas -/

theorem rc_to_bit_bounds {r c : Int} (h : InRange r c) :
    0 ≤ rc_to_bit r c ∧ rc_to_bit r c < 64 := by
  unfold InRange at h; unfold rc_to_bit; omega

theorem mask_rc_of_inRange {r c : Int} (h : InRange r c) :
    mask_rc r c = 2 ^ (rc_to_bit r c).toNat := by
  have hb := rc_to_bit_bounds h
  unfold mask_rc
  rw [Nat.one_shiftLeft]
  exact Nat.mod_eq_of_lt (Nat.pow_lt_pow_right (by decide) (by omega))

theorem and_two_pow_ne_zero (bb n : Nat) : ((bb &&& 2 ^ n) != 0) = bb.testBit n := by
  rw [Nat.and_two_pow]
  cases h : bb.testBit n <;> simp

theorem is_occupied_eq_testBit (bb : Nat) {r c : Int} (h : InRange r c) :
    is_occupied bb r c = bb.testBit (rc_to_bit r c).toNat := by
  unfold is_occupied; rw [mask_rc_of_inRange h, and_two_pow_ne_zero]

theorem testBit_mask_rc {r c : Int} (h : InRange r c) (t : Nat) :
    (mask_rc r c).testBit t = true ↔ (t : Int) = rc_to_bit r c := by
  have hb := rc_to_bit_bounds h
  rw [mask_rc_of_inRange h, Nat.testBit_two_pow]
  simp only [decide_eq_true_eq]
  omega

/-- A ray from a board square in one of the eight directions leaves the board
after at most seven steps. -/
theorem ray_bound {row col : Int} {d : Int × Int} (hd : d ∈ DIRECTION)
    (h0 : InRange row col) {i : Nat} (hi : InRange (row + i * d.1) (col + i * d.2)) :
    i ≤ 7 := by
  obtain ⟨dr, dc⟩ := d
  unfold InRange at *
  simp only [DIRECTION, List.mem_cons, Prod.mk.injEq, List.mem_singleton, List.not_mem_nil,
    or_false] at hd
  rcases hd with h | h | h | h | h | h | h | h <;> obtain ⟨rfl, rfl⟩ := h <;>
    simp only at hi <;> omega

/-! ## The directional scan -/

/-- Loop invariant of `scan`: entered at square `n + 1` of the ray with the
bits of the enemy squares `1 .. n` collected, and with enough fuel, the loop
ends with the bits of the maximal enemy run `1 .. k`, and `canFlip` tells
whether square `k + 1` is on the board and owned by the mover. -/
theorem scan_spec (enemyBB selfBB : Nat) {row col : Int} {d : Int × Int}
    (hd : d ∈ DIRECTION) (h0 : InRange row col) :
    ∀ (fuel n mask : Nat), 8 ≤ fuel + n →
      RunOf enemyBB row col d n → RunBits row col d n mask →
      ∃ (k m : Nat) (cf : Bool),
        scan enemyBB selfBB d.1 d.2 fuel (row + (n + 1 : Nat) * d.1) (col + (n + 1 : Nat) * d.2)
          mask = some (m, cf) ∧
        RunOf enemyBB row col d k ∧
        ¬ (InRange (row + (k + 1 : Nat) * d.1) (col + (k + 1 : Nat) * d.2) ∧
            is_occupied enemyBB (row + (k + 1 : Nat) * d.1) (col + (k + 1 : Nat) * d.2) = true) ∧
        RunBits row col d k m ∧
        (cf = true ↔ InRange (row + (k + 1 : Nat) * d.1) (col + (k + 1 : Nat) * d.2) ∧
            is_occupied selfBB (row + (k + 1 : Nat) * d.1) (col + (k + 1 : Nat) * d.2) = true) := by
  intro fuel
  induction fuel with
  | zero =>
    intro n mask hfuel hrun _
    have h8 := (hrun 8 (by omega) (by omega)).1
    have := ray_bound hd h0 h8
    omega
  | succ fuel ih =>
    intro n mask hfuel hrun hbits
    unfold scan
    by_cases hin : InRange (row + (n + 1 : Nat) * d.1) (col + (n + 1 : Nat) * d.2)
    · have hin2 : (row + (n + 1 : Nat) * d.1 ≥ 0 ∧ row + (n + 1 : Nat) * d.1 < 8 ∧
          col + (n + 1 : Nat) * d.2 ≥ 0 ∧ col + (n + 1 : Nat) * d.2 < 8) := hin
      rw [if_pos hin2]
      by_cases hocc : is_occupied enemyBB (row + (n + 1 : Nat) * d.1) (col + (n + 1 : Nat) * d.2) = true
      · rw [if_pos hocc]
        have hn7 := ray_bound hd h0 hin
        have hrun2 : RunOf enemyBB row col d (n + 1) := by
          intro j hj1 hj2
          by_cases hjn : j ≤ n
          · exact hrun j hj1 hjn
          · have : j = n + 1 := by omega
            subst this
            exact ⟨hin, hocc⟩
        have hbits2 : RunBits row col d (n + 1)
            (mask ||| mask_rc (row + (n + 1 : Nat) * d.1) (col + (n + 1 : Nat) * d.2)) := by
          intro t
          rw [Nat.testBit_or, Bool.or_eq_true, hbits t, testBit_mask_rc hin]
          constructor
          · rintro (⟨j, hj1, hj2, hj3⟩ | h)
            · exact ⟨j, hj1, by omega, hj3⟩
            · exact ⟨n + 1, by omega, le_refl _, h⟩
          · rintro ⟨j, hj1, hj2, hj3⟩
            by_cases hjn : j ≤ n
            · exact Or.inl ⟨j, hj1, hjn, hj3⟩
            · have : j = n + 1 := by omega
              subst this
              exact Or.inr hj3
        have e1 : row + (n + 1 : Nat) * d.1 + d.1 = row + (n + 1 + 1 : Nat) * d.1 := by
          push_cast; ring
        have e2 : col + (n + 1 : Nat) * d.2 + d.2 = col + (n + 1 + 1 : Nat) * d.2 := by
          push_cast; ring
        rw [e1, e2]
        exact ih (n + 1) _ (by omega) hrun2 hbits2
      · rw [if_neg hocc]
        refine ⟨n, mask, _, rfl, hrun, ?_, hbits, ?_⟩
        · exact fun h => hocc h.2
        · exact ⟨fun h => ⟨hin, h⟩, fun h => h.2⟩
    · have hin2 : ¬ (row + (n + 1 : Nat) * d.1 ≥ 0 ∧ row + (n + 1 : Nat) * d.1 < 8 ∧
          col + (n + 1 : Nat) * d.2 ≥ 0 ∧ col + (n + 1 : Nat) * d.2 < 8) := hin
      rw [if_neg hin2]
      refine ⟨n, mask, false, rfl, hrun, ?_, hbits, ?_⟩
      · exact fun h => hin h.1
      · exact ⟨fun h => (by cases h), fun h => absurd h.1 hin⟩

theorem not_both_testBit {a b : Nat} (h : a &&& b = 0) (n : Nat) :
    ¬ (a.testBit n = true ∧ b.testBit n = true) := by
  rintro ⟨ha, hb⟩
  have h2 := Nat.testBit_and a b n
  rw [h, ha, hb] at h2
  simp at h2

/-- One direction of `compute_flip`: the step returns, and it adds to `flips`
exactly the bits turned over along `d`. -/
theorem flip_step_spec {enemyBB selfBB : Nat} (hdisj : enemyBB &&& selfBB = 0)
    {row col : Int} {d : Int × Int} (hd : d ∈ DIRECTION) (h0 : InRange row col) (flips : Nat) :
    ∃ F, flip_step enemyBB selfBB row col flips d = some F ∧
      ∀ t : Nat, F.testBit t = true ↔
        (flips.testBit t = true ∨ DirFlip enemyBB selfBB row col d t) := by
  have hrun0 : RunOf enemyBB row col d 0 := fun j h1 h2 => by omega
  have hbits0 : RunBits row col d 0 0 := by
    intro t
    simp only [Nat.zero_testBit, Bool.false_eq_true, false_iff, not_exists, not_and]
    intro j h1 h2; omega
  obtain ⟨k, m, cf, hscan, hrun, hstop, hbits, hcf⟩ :=
    scan_spec enemyBB selfBB hd h0 scanFuel 0 0 (by unfold scanFuel; omega) hrun0 hbits0
  have e1 : row + ((0 + 1 : Nat) : Int) * d.1 = row + d.1 := by simp
  have e2 : col + ((0 + 1 : Nat) : Int) * d.2 = col + d.2 := by simp
  rw [e1, e2] at hscan
  have hkk : ∀ k' : Nat, RunOf enemyBB row col d k' →
      InRange (row + (k' + 1 : Nat) * d.1) (col + (k' + 1 : Nat) * d.2) →
      is_occupied selfBB (row + (k' + 1 : Nat) * d.1) (col + (k' + 1 : Nat) * d.2) = true →
      k' = k := by
    intro k' hrun' hin' hself'
    have h1 : k' ≤ k := by
      by_contra hlt
      exact hstop (hrun' (k + 1) (by omega) (by omega))
    have h2 : k ≤ k' := by
      by_contra hlt
      have he := (hrun (k' + 1) (by omega) (by omega)).2
      rw [is_occupied_eq_testBit _ hin'] at he hself'
      exact not_both_testBit hdisj _ ⟨he, hself'⟩
    omega
  unfold flip_step
  rw [hscan]
  refine ⟨_, rfl, fun t => ?_⟩
  by_cases hc : (cf && m != 0) = true
  · rw [if_pos hc, Nat.testBit_or, Bool.or_eq_true]
    simp only [Bool.and_eq_true, bne_iff_ne, ne_eq] at hc
    constructor
    · rintro (h | h)
      · exact Or.inl h
      · obtain ⟨j, hj1, hj2, hj3⟩ := (hbits t).1 h
        exact Or.inr ⟨k, by omega, hrun, ⟨j, hj1, hj2, hj3⟩, (hcf.1 hc.1).1, (hcf.1 hc.1).2⟩
    · rintro (h | ⟨k', _, hrun', hj, hin', hself'⟩)
      · exact Or.inl h
      · have := hkk k' hrun' hin' hself'
        subst this
        exact Or.inr ((hbits t).2 hj)
  · rw [if_neg hc]
    constructor
    · exact Or.inl
    · rintro (h | ⟨k', _, hrun', hj, hin', hself'⟩)
      · exact h
      · exfalso
        have := hkk k' hrun' hin' hself'
        subst this
        apply hc
        have hm : m ≠ 0 := by
          intro hm0
          have := (hbits t).2 hj
          rw [hm0] at this
          simp at this
        simp only [Bool.and_eq_true, bne_iff_ne, ne_eq]
        exact ⟨hcf.2 ⟨hin', hself'⟩, hm⟩

/-- The loop over the directions: it returns, and the result is `flips`
together with the bits turned over along the directions of the list. -/
theorem foldlM_flip_step_spec {enemyBB selfBB : Nat} (hdisj : enemyBB &&& selfBB = 0)
    {row col : Int} (h0 : InRange row col) :
    ∀ (l : List (Int × Int)), (∀ d ∈ l, d ∈ DIRECTION) → ∀ flips : Nat,
      ∃ F, l.foldlM (flip_step enemyBB selfBB row col) flips = some F ∧
        ∀ t : Nat, F.testBit t = true ↔
          (flips.testBit t = true ∨ ∃ d ∈ l, DirFlip enemyBB selfBB row col d t) := by
  intro l
  induction l with
  | nil =>
    intro _ flips
    exact ⟨flips, rfl, fun t => by simp⟩
  | cons d l ih =>
    intro hl flips
    obtain ⟨F1, hF1, hbits1⟩ := flip_step_spec hdisj (hl d (List.mem_cons_self _ _)) h0 flips
    obtain ⟨F2, hF2, hbits2⟩ := ih (fun e he => hl e (List.mem_cons_of_mem _ he)) F1
    refine ⟨F2, ?_, fun t => ?_⟩
    · rw [List.foldlM_cons, hF1]
      exact hF2
    · rw [hbits2 t, hbits1 t]
      simp only [List.mem_cons, exists_eq_or_imp]
      tauto

/-- Without any assumption on the board: one direction of `compute_flip`
returns, and every bit it adds is the bit of a board square of the ray that is
set in the enemy mask. -/
theorem flip_step_sound (enemyBB selfBB : Nat) {row col : Int} {d : Int × Int}
    (hd : d ∈ DIRECTION) (h0 : InRange row col) (flips : Nat) :
    ∃ F, flip_step enemyBB selfBB row col flips d = some F ∧
      ∀ t : Nat, F.testBit t = true → flips.testBit t = true ∨
        ∃ j : Nat, 1 ≤ j ∧ InRange (row + j * d.1) (col + j * d.2) ∧
          is_occupied enemyBB (row + j * d.1) (col + j * d.2) = true ∧
          (t : Int) = rc_to_bit (row + j * d.1) (col + j * d.2) := by
  have hrun0 : RunOf enemyBB row col d 0 := fun j h1 h2 => by omega
  have hbits0 : RunBits row col d 0 0 := by
    intro t
    simp only [Nat.zero_testBit, Bool.false_eq_true, false_iff, not_exists, not_and]
    intro j h1 h2; omega
  obtain ⟨k, m, cf, hscan, hrun, -, hbits, -⟩ :=
    scan_spec enemyBB selfBB hd h0 scanFuel 0 0 (by unfold scanFuel; omega) hrun0 hbits0
  have e1 : row + ((0 + 1 : Nat) : Int) * d.1 = row + d.1 := by simp
  have e2 : col + ((0 + 1 : Nat) : Int) * d.2 = col + d.2 := by simp
  rw [e1, e2] at hscan
  unfold flip_step
  rw [hscan]
  refine ⟨_, rfl, fun t ht => ?_⟩
  split at ht
  · rw [Nat.testBit_or, Bool.or_eq_true] at ht
    rcases ht with h | h
    · exact Or.inl h
    · obtain ⟨j, hj1, hj2, hj3⟩ := (hbits t).1 h
      exact Or.inr ⟨j, hj1, (hrun j hj1 hj2).1, (hrun j hj1 hj2).2, hj3⟩
  · exact Or.inl ht

theorem foldlM_flip_step_sound (enemyBB selfBB : Nat) {row col : Int} (h0 : InRange row col) :
    ∀ (l : List (Int × Int)), (∀ d ∈ l, d ∈ DIRECTION) → ∀ flips : Nat,
      ∃ F, l.foldlM (flip_step enemyBB selfBB row col) flips = some F ∧
        ∀ t : Nat, F.testBit t = true → flips.testBit t = true ∨
          ∃ d ∈ DIRECTION, ∃ j : Nat, 1 ≤ j ∧ InRange (row + j * d.1) (col + j * d.2) ∧
            is_occupied enemyBB (row + j * d.1) (col + j * d.2) = true ∧
            (t : Int) = rc_to_bit (row + j * d.1) (col + j * d.2) := by
  intro l
  induction l with
  | nil =>
    intro _ flips
    exact ⟨flips, rfl, fun t ht => Or.inl ht⟩
  | cons d l ih =>
    intro hl flips
    have hdD := hl d (List.mem_cons_self _ _)
    obtain ⟨F1, hF1, hbits1⟩ := flip_step_sound enemyBB selfBB hdD h0 flips
    obtain ⟨F2, hF2, hbits2⟩ := ih (fun e he => hl e (List.mem_cons_of_mem _ he)) F1
    refine ⟨F2, ?_, fun t ht => ?_⟩
    · rw [List.foldlM_cons, hF1]
      exact hF2
    · rcases hbits2 t ht with h | h
      · rcases hbits1 t h with h' | h'
        · exact Or.inl h'
        · exact Or.inr ⟨d, hdD, h'⟩
      · exact Or.inr h

/-! ## C1: `compute_flip` against the reference flip set -/

/-- C1. On a board with disjoint masks, for a mover in {BLACK, WHITE} and an
empty square in range, `compute_flip` returns, and its result has exactly the
bits of the reference flip set: the bits of the runs of opponent squares that
are closed by a square of the mover, over the eight directions. -/
theorem compute_flip_eq_reference (board : OthelloBitBoard) (player row col : Int)
    (hdisj : Disjoint board) (hp : player = BLACK ∨ player = WHITE)
    (hr : InRange row col) (hempty : is_empty board row col = true) :
    ∃ flips, compute_flip board player row col = some flips ∧
      ∀ t : Nat, flips.testBit t = true ↔ InRefFlipSet board player row col t := by
  have hd2 : (if (if player = BLACK then WHITE else BLACK) = BLACK then board.blackBB
        else board.whiteBB) &&& (if player = BLACK then board.blackBB else board.whiteBB) = 0 := by
    unfold Disjoint at hdisj
    rcases hp with rfl | rfl
    · simp only [BLACK, WHITE]; rw [Nat.land_comm]; simpa using hdisj
    · simp only [BLACK, WHITE]; simpa using hdisj
  obtain ⟨F, hF, hbits⟩ := foldlM_flip_step_spec hd2 hr DIRECTION (fun _ h => h) 0
  refine ⟨F, ?_, fun t => ?_⟩
  · unfold compute_flip
    simp only [hempty, Bool.not_true, Bool.false_eq_true, if_false]
    exact hF
  · rw [hbits t]
    simp only [Nat.zero_testBit, Bool.false_eq_true, false_or]
    unfold InRefFlipSet DirFlip RunOf Owns maskOf opponentOf
    constructor
    · rintro ⟨d, hd, k, hk, hrun, hj, hin, hself⟩
      exact ⟨d, hd, k, hk, hrun, hj, hin, hself⟩
    · rintro ⟨d, hd, k, hk, hrun, hj, hin, hself⟩
      exact ⟨d, hd, k, hk, hrun, hj, hin, hself⟩

/-- C1 at the initial board: BLACK playing the empty square (2, 4). -/
theorem compute_flip_eq_reference_witness :
    Disjoint initial_board_cpp ∧ InRange 2 4 ∧ is_empty initial_board_cpp 2 4 = true ∧
    ∃ flips, compute_flip initial_board_cpp BLACK 2 4 = some flips ∧
      ∀ t : Nat, flips.testBit t = true ↔ InRefFlipSet initial_board_cpp BLACK 2 4 t :=
  ⟨by decide, by decide, by decide,
    compute_flip_eq_reference initial_board_cpp BLACK 2 4 (by decide) (Or.inl rfl) (by decide)
      (by decide)⟩

/-! ## General facts about `compute_flip` -/

theorem is_empty_eq_testBit (board : OthelloBitBoard) {r c : Int} (h : InRange r c) :
    is_empty board r c =
      !(board.blackBB.testBit (rc_to_bit r c).toNat || board.whiteBB.testBit (rc_to_bit r c).toNat) := by
  unfold is_empty
  simp only
  rw [mask_rc_of_inRange h, ← Nat.testBit_or, ← and_two_pow_ne_zero]
  cases hz : ((board.blackBB ||| board.whiteBB) &&& 2 ^ (rc_to_bit r c).toNat) == 0 <;>
    simp [bne, hz]

theorem is_empty_false_of_occupied (board : OthelloBitBoard) {r c : Int} (h : InRange r c)
    (hocc : is_occupied board.blackBB r c = true ∨ is_occupied board.whiteBB r c = true) :
    is_empty board r c = false := by
  rw [is_empty_eq_testBit board h]
  rw [is_occupied_eq_testBit _ h, is_occupied_eq_testBit _ h] at hocc
  rcases hocc with h1 | h1 <;> simp [h1]

/-- For every board, player and square in range, `compute_flip` returns a mask
whose bits are bits of board squares set in the enemy mask; and a non-zero
result is only returned on an empty square. -/
theorem compute_flip_sound (board : OthelloBitBoard) (player : Int) {row col : Int}
    (hr : InRange row col) :
    ∃ F, compute_flip board player row col = some F ∧
      (F ≠ 0 → is_empty board row col = true) ∧
      ∀ t : Nat, F.testBit t = true →
        t < 64 ∧ (maskOf board (opponentOf player)).testBit t = true := by
  unfold compute_flip
  by_cases he : is_empty board row col = true
  · simp only [he, Bool.not_true, Bool.false_eq_true, if_false]
    obtain ⟨F, hF, hbits⟩ := foldlM_flip_step_sound
      (if (if player = BLACK then WHITE else BLACK) = BLACK then board.blackBB else board.whiteBB)
      (if player = BLACK then board.blackBB else board.whiteBB) hr DIRECTION (fun _ h => h) 0
    refine ⟨F, hF, fun _ => trivial, fun t ht => ?_⟩
    rcases hbits t ht with h | ⟨d, _, j, _, hin, hocc, ht2⟩
    · simp at h
    · have hb := rc_to_bit_bounds hin
      rw [is_occupied_eq_testBit _ hin] at hocc
      have e : (rc_to_bit (row + j * d.1) (col + j * d.2)).toNat = t := by omega
      rw [e] at hocc
      exact ⟨by omega, hocc⟩
  · simp only [he, Bool.not_false, if_true]
    exact ⟨0, rfl, fun h => absurd rfl h, fun t ht => by simp at ht⟩

/-! ## C10: occupied squares -/

/-- C10. For every board (disjoint or not), every mover and every square in
range that is occupied by either colour, `compute_flip` returns 0 and `can_put`
returns false. -/
theorem compute_flip_occupied (board : OthelloBitBoard) (player row col : Int)
    (hr : InRange row col)
    (hocc : is_occupied board.blackBB row col = true ∨ is_occupied board.whiteBB row col = true) :
    compute_flip board player row col = some 0 ∧ can_put board player row col = some false := by
  have he := is_empty_false_of_occupied board hr hocc
  have h1 : compute_flip board player row col = some 0 := by
    unfold compute_flip
    simp [he]
  refine ⟨h1, ?_⟩
  unfold can_put
  rw [h1]
  rfl

/-- C10 at the initial board: WHITE on the square (3, 3), which holds a black disc. -/
theorem compute_flip_occupied_witness :
    InRange 3 3 ∧ is_occupied initial_board_cpp.blackBB 3 3 = true ∧
    compute_flip initial_board_cpp WHITE 3 3 = some 0 ∧
    can_put initial_board_cpp WHITE 3 3 = some false :=
  ⟨by decide, by decide,
    compute_flip_occupied initial_board_cpp WHITE 3 3 (by decide) (Or.inl (by decide))⟩

/-! ## C2: `put_cpp` on an empty square that turns nothing over -/

/-- C2. On the initial board the square (0, 0) is empty and BLACK turns nothing
over there (`compute_flip` returns 0, `can_put` is false), yet `put_cpp` does
not return the input board: the guard `flipMask == 0 && !is_empty` is false on
an empty square, and the placement bit 0 is set in `blackBB`. -/
theorem put_cpp_empty_no_flip_places_disc :
    is_empty initial_board_cpp 0 0 = true ∧
    compute_flip initial_board_cpp BLACK 0 0 = some 0 ∧
    can_put initial_board_cpp BLACK 0 0 = some false ∧
    put_cpp initial_board_cpp BLACK (0, 0) =
      some { blackBB := initial_board_cpp.blackBB ||| 1, whiteBB := initial_board_cpp.whiteBB } ∧
    put_cpp initial_board_cpp BLACK (0, 0) ≠ some initial_board_cpp := by
  decide

/-! ## C3: `put_cpp` on a legal square -/

theorem testBit_land_not64 (w F t : Nat) (ht : t < 64) :
    (w &&& not64 F).testBit t = (w.testBit t && !F.testBit t) := by
  unfold not64
  rw [Nat.testBit_and, Nat.testBit_xor, Nat.testBit_two_pow_sub_one]
  simp [ht]

/-- C3. For every board, every mover and every square in range on which
`can_put` holds, the square is empty, `compute_flip` returns a non-zero mask
`F`, and `put_cpp` returns the board whose mover mask is
`old mover mask | bit(square) | F` and whose opponent mask is
`old opponent mask & ~F`; bit by bit, a square belongs to the mover afterwards
iff it did before, or is the played square, or is in `F`, and it belongs to the
opponent afterwards iff it did before and is not in `F`. -/
theorem put_cpp_legal (board : OthelloBitBoard) (player row col : Int)
    (hr : InRange row col) (hlegal : can_put board player row col = some true) :
    ∃ F b', compute_flip board player row col = some F ∧ F ≠ 0 ∧
      is_empty board row col = true ∧
      put_cpp board player (row, col) = some b' ∧
      maskOf b' player = (maskOf board player ||| mask_rc row col) ||| F ∧
      maskOf b' (opponentOf player) = maskOf board (opponentOf player) &&& not64 F ∧
      ∀ t : Nat, t < 64 →
        ((maskOf b' player).testBit t =
          ((maskOf board player).testBit t || decide ((t : Int) = rc_to_bit row col) ||
            F.testBit t)) ∧
        ((maskOf b' (opponentOf player)).testBit t =
          ((maskOf board (opponentOf player)).testBit t && !F.testBit t)) := by
  obtain ⟨F, hF, hemp, -⟩ := compute_flip_sound board player hr
  have hne : F ≠ 0 := by
    unfold can_put at hlegal
    rw [hF] at hlegal
    simpa using hlegal
  have he := hemp hne
  have hput : put_cpp board player (row, col) =
      some (if player = BLACK then
          { blackBB := (board.blackBB ||| mask_rc row col) ||| F,
            whiteBB := board.whiteBB &&& not64 F }
        else
          { whiteBB := (board.whiteBB ||| mask_rc row col) ||| F,
            blackBB := board.blackBB &&& not64 F }) := by
    unfold put_cpp
    simp only [hF, he]
    by_cases hp : player = BLACK <;> simp [hp, hne]
  have hbit : ∀ t : Nat, ((mask_rc row col).testBit t) = decide ((t : Int) = rc_to_bit row col) := by
    intro t
    have := testBit_mask_rc hr t
    by_cases h : (t : Int) = rc_to_bit row col
    · simp [h, this.2 h]
    · have h2 : (mask_rc row col).testBit t = false := by
        cases h3 : (mask_rc row col).testBit t
        · rfl
        · exact absurd (this.1 h3) h
      simp [h, h2]
  have hwb : WHITE ≠ BLACK := by decide
  refine ⟨F, _, hF, hne, he, hput, ?_, ?_, fun t ht => ⟨?_, ?_⟩⟩
  · by_cases hp : player = BLACK <;> simp [maskOf, hp]
  · by_cases hp : player = BLACK <;> simp [maskOf, opponentOf, hp, hwb]
  · by_cases hp : player = BLACK <;> simp [maskOf, hp, hbit]
  · by_cases hp : player = BLACK <;>
      simp [maskOf, opponentOf, hp, hwb, testBit_land_not64 _ _ _ ht]

/-- C3 at the initial board: BLACK plays (2, 4) and turns over the white disc on (3, 4). -/
theorem put_cpp_legal_witness :
    InRange 2 4 ∧ can_put initial_board_cpp BLACK 2 4 = some true ∧
    ∃ F b', compute_flip initial_board_cpp BLACK 2 4 = some F ∧ F ≠ 0 ∧
      is_empty initial_board_cpp 2 4 = true ∧
      put_cpp initial_board_cpp BLACK (2, 4) = some b' ∧
      maskOf b' BLACK = (maskOf initial_board_cpp BLACK ||| mask_rc 2 4) ||| F ∧
      maskOf b' (opponentOf BLACK) = maskOf initial_board_cpp (opponentOf BLACK) &&& not64 F ∧
      ∀ t : Nat, t < 64 →
        ((maskOf b' BLACK).testBit t =
          ((maskOf initial_board_cpp BLACK).testBit t || decide ((t : Int) = rc_to_bit 2 4) ||
            F.testBit t)) ∧
        ((maskOf b' (opponentOf BLACK)).testBit t =
          ((maskOf initial_board_cpp (opponentOf BLACK)).testBit t && !F.testBit t)) :=
  ⟨by decide, by decide, put_cpp_legal initial_board_cpp BLACK 2 4 (by decide) (by decide)⟩

/-! ## Population count -/

theorem popcount64_eq_countP (x : Nat) :
    popcount64 x = (List.range 64).countP (fun i => x.testBit i) := by
  unfold popcount64
  rw [List.countP_eq_length_filter]

theorem popcount64_le (x : Nat) : popcount64 x ≤ 64 := by
  rw [popcount64_eq_countP]
  exact le_trans (List.countP_le_length _) (by simp)

theorem popcount64_congr {x y : Nat} (h : ∀ t : Nat, t < 64 → x.testBit t = y.testBit t) :
    popcount64 x = popcount64 y := by
  rw [popcount64_eq_countP, popcount64_eq_countP]
  apply List.countP_congr
  intro t ht
  rw [List.mem_range] at ht
  simp only [h t ht]

theorem countP_or_of_disjoint (p q : Nat → Bool) :
    ∀ l : List Nat, (∀ t ∈ l, ¬ (p t = true ∧ q t = true)) →
      l.countP (fun t => p t || q t) = l.countP p + l.countP q := by
  intro l
  induction l with
  | nil => intro _; rfl
  | cons a l ih =>
    intro h
    have ha := h a (List.mem_cons_self _ _)
    have ih2 := ih (fun t ht => h t (List.mem_cons_of_mem _ ht))
    rw [List.countP_cons, List.countP_cons, List.countP_cons, ih2]
    cases hp : p a <;> cases hq : q a <;> simp_all <;> omega

theorem popcount64_or {x y : Nat}
    (h : ∀ t : Nat, t < 64 → ¬ (x.testBit t = true ∧ y.testBit t = true)) :
    popcount64 (x ||| y) = popcount64 x + popcount64 y := by
  rw [popcount64_eq_countP, popcount64_eq_countP, popcount64_eq_countP,
    ← countP_or_of_disjoint _ _ _ (fun t ht => h t (List.mem_range.1 ht))]
  apply List.countP_congr
  intro t _
  simp only [Nat.testBit_or]

theorem popcount64_two_pow {n : Nat} (hn : n < 64) : popcount64 (2 ^ n) = 1 := by
  interval_cases n <;> decide

/-! ## The masks written by `put_cpp` -/

theorem eq_zero_of_testBit (x : Nat) (h : ∀ t : Nat, x.testBit t = false) : x = 0 :=
  Nat.eq_of_testBit_eq (fun t => by rw [h t, Nat.zero_testBit])

theorem testBit_false_of_land_eq_zero {a b : Nat} (h : a &&& b = 0) (t : Nat)
    (ha : a.testBit t = true) : b.testBit t = false := by
  cases hb : b.testBit t
  · rfl
  · exact absurd ⟨ha, hb⟩ (not_both_testBit h t)

/-- The new mover mask and the new opponent mask are disjoint. -/
theorem placed_disjoint {m o F n : Nat} (hmo : m &&& o = 0) (hno : o.testBit n = false)
    (hF : ∀ t : Nat, F.testBit t = true → t < 64) :
    ((m ||| 2 ^ n) ||| F) &&& (o &&& not64 F) = 0 := by
  apply eq_zero_of_testBit
  intro t
  unfold not64
  simp only [Nat.testBit_and, Nat.testBit_or, Nat.testBit_xor, Nat.testBit_two_pow_sub_one,
    Nat.testBit_two_pow]
  cases hFt : F.testBit t
  · cases hmt : m.testBit t
    · by_cases hnt : n = t
      · subst hnt; simp [hno]
      · simp [hnt]
    · simp [testBit_false_of_land_eq_zero hmo t hmt]
  · simp [hF t hFt]

/-- The placement adds one disc to the total: flips only change the owner. -/
theorem placed_popcount {m o F n : Nat} (hmo : m &&& o = 0) (hn : n < 64)
    (hnm : m.testBit n = false) (hno : o.testBit n = false)
    (hF : ∀ t : Nat, F.testBit t = true → t < 64 ∧ o.testBit t = true) :
    popcount64 ((m ||| 2 ^ n) ||| F) + popcount64 (o &&& not64 F) =
      popcount64 m + popcount64 o + 1 := by
  have hd := placed_disjoint hmo hno (fun t ht => (hF t ht).1)
  rw [← popcount64_or (fun t _ => not_both_testBit hd t)]
  have h1 : popcount64 (((m ||| 2 ^ n) ||| F) ||| (o &&& not64 F)) =
      popcount64 ((m ||| o) ||| 2 ^ n) := by
    apply popcount64_congr
    intro t ht
    simp only [Nat.testBit_or, testBit_land_not64 _ _ _ ht]
    cases hFt : F.testBit t
    · cases m.testBit t <;> cases o.testBit t <;> cases (2 ^ n).testBit t <;> rfl
    · rw [(hF t hFt).2]
      cases m.testBit t <;> cases (2 ^ n).testBit t <;> rfl
  rw [h1, popcount64_or, popcount64_or (fun t _ => not_both_testBit hmo t),
    popcount64_two_pow hn]
  intro t _ hboth
  rw [Nat.testBit_two_pow] at hboth
  have hnt : n = t := by simpa using hboth.2
  subst hnt
  rw [Nat.testBit_or, hnm, hno] at hboth
  simp at hboth

theorem lt_two_pow_64_of_bits {F : Nat} (hF : ∀ t : Nat, F.testBit t = true → t < 64) :
    F < 2 ^ 64 := by
  apply Nat.lt_pow_two_of_testBit
  intro i hi
  cases h : F.testBit i
  · rfl
  · have := hF i h
    omega

/-- What `put_cpp` returns on a square in range: the input board when the
square is occupied, and otherwise the board with the disc placed and the mask
`F` of `compute_flip` turned over, whether or not `F` is zero. -/
theorem put_cpp_eq (board : OthelloBitBoard) (player : Int) {row col : Int}
    (hr : InRange row col) :
    ∃ F, compute_flip board player row col = some F ∧
      (∀ t : Nat, F.testBit t = true →
        t < 64 ∧ (maskOf board (opponentOf player)).testBit t = true) ∧
      put_cpp board player (row, col) =
        some (if is_empty board row col = true then
            (if player = BLACK then
              { blackBB := (board.blackBB ||| mask_rc row col) ||| F,
                whiteBB := board.whiteBB &&& not64 F }
            else
              { whiteBB := (board.whiteBB ||| mask_rc row col) ||| F,
                blackBB := board.blackBB &&& not64 F })
          else board) := by
  obtain ⟨F, hF, hemp, hbits⟩ := compute_flip_sound board player hr
  refine ⟨F, hF, hbits, ?_⟩
  unfold put_cpp
  simp only [hF]
  by_cases he : is_empty board row col = true
  · by_cases hp : player = BLACK <;> simp [he, hp]
  · have hF0 : F = 0 := by
      by_contra hne
      exact he (hemp hne)
    simp [he, hF0]

/-- One call of `put_cpp` on a board with disjoint masks: it returns, the
result has disjoint masks and stays within 64 bits, and the total count grows
by one when the square was empty and the board is returned as it was otherwise. -/
theorem put_cpp_step (board : OthelloBitBoard) (player : Int) {row col : Int}
    (hr : InRange row col) (hdisj : Disjoint board) :
    ∃ b', put_cpp board player (row, col) = some b' ∧ Disjoint b' ∧
      (board.blackBB < 2 ^ 64 → board.whiteBB < 2 ^ 64 →
        b'.blackBB < 2 ^ 64 ∧ b'.whiteBB < 2 ^ 64) ∧
      (is_empty board row col = true →
        popcount64 b'.blackBB + popcount64 b'.whiteBB =
          popcount64 board.blackBB + popcount64 board.whiteBB + 1) ∧
      (is_empty board row col = false → b' = board) := by
  obtain ⟨F, -, hbits, hput⟩ := put_cpp_eq board player hr
  refine ⟨_, hput, ?_⟩
  have hwb : WHITE ≠ BLACK := by decide
  have hb := rc_to_bit_bounds hr
  have hn : (rc_to_bit row col).toNat < 64 := by omega
  have hpl : mask_rc row col < 2 ^ 64 := by
    rw [mask_rc_of_inRange hr]
    exact Nat.pow_lt_pow_right (by decide) hn
  have hFlt : F < 2 ^ 64 := lt_two_pow_64_of_bits (fun t ht => (hbits t ht).1)
  unfold Disjoint at hdisj
  by_cases he : is_empty board row col = true
  · have he2 := he
    rw [is_empty_eq_testBit board hr] at he2
    simp only [Bool.not_eq_true', Bool.or_eq_false_iff] at he2
    obtain ⟨hnb, hnw⟩ := he2
    rw [if_pos he]
    by_cases hp : player = BLACK
    · rw [if_pos hp]
      have hbits2 : ∀ t : Nat, F.testBit t = true → t < 64 ∧ board.whiteBB.testBit t = true := by
        intro t ht
        have := hbits t ht
        simpa [maskOf, opponentOf, hp, hwb] using this
      refine ⟨?_, ?_, ?_, ?_⟩
      · unfold Disjoint
        simp only
        rw [mask_rc_of_inRange hr]
        exact placed_disjoint hdisj hnw (fun t ht => (hbits2 t ht).1)
      · intro h1 h2
        exact ⟨Nat.or_lt_two_pow (Nat.or_lt_two_pow h1 hpl) hFlt,
          lt_of_le_of_lt Nat.and_le_left h2⟩
      · intro _
        simp only
        rw [mask_rc_of_inRange hr]
        exact placed_popcount hdisj hn hnb hnw hbits2
      · intro h
        rw [he] at h
        cases h
    · rw [if_neg hp]
      have hbits2 : ∀ t : Nat, F.testBit t = true → t < 64 ∧ board.blackBB.testBit t = true := by
        intro t ht
        have := hbits t ht
        simpa [maskOf, opponentOf, hp] using this
      have hdisj2 : board.whiteBB &&& board.blackBB = 0 := by
        rw [Nat.land_comm]; exact hdisj
      refine ⟨?_, ?_, ?_, ?_⟩
      · unfold Disjoint
        simp only
        rw [mask_rc_of_inRange hr, Nat.land_comm]
        exact placed_disjoint hdisj2 hnb (fun t ht => (hbits2 t ht).1)
      · intro h1 h2
        exact ⟨lt_of_le_of_lt Nat.and_le_left h1,
          Nat.or_lt_two_pow (Nat.or_lt_two_pow h2 hpl) hFlt⟩
      · intro _
        simp only
        rw [mask_rc_of_inRange hr]
        have := placed_popcount hdisj2 hn hnw hnb hbits2
        omega
      · intro h
        rw [he] at h
        cases h
  · rw [if_neg he]
    exact ⟨hdisj, fun h1 h2 => ⟨h1, h2⟩, fun h => absurd h he, fun _ => rfl⟩

/-- A run of `put_cpp` calls on squares in range, from a board with disjoint
64-bit masks: every call returns and the final board has disjoint 64-bit masks. -/
theorem put_seq_invariant :
    ∀ (moves : List (Int × Int × Int)) (board : OthelloBitBoard),
      (∀ m ∈ moves, InRange m.2.1 m.2.2) → Disjoint board →
      board.blackBB < 2 ^ 64 → board.whiteBB < 2 ^ 64 →
      ∃ b', put_seq board moves = some b' ∧ Disjoint b' ∧
        b'.blackBB < 2 ^ 64 ∧ b'.whiteBB < 2 ^ 64 := by
  intro moves
  induction moves with
  | nil =>
    intro board _ hd h1 h2
    exact ⟨board, rfl, hd, h1, h2⟩
  | cons mv rest ih =>
    intro board hin hd h1 h2
    obtain ⟨player, row, col⟩ := mv
    have hr : InRange row col := hin (player, row, col) (List.mem_cons_self _ _)
    obtain ⟨b1, hput, hd1, hlt, -, -⟩ := put_cpp_step board player hr hd
    obtain ⟨hb1, hw1⟩ := hlt h1 h2
    obtain ⟨b2, hseq, hres⟩ := ih b1 (fun m hm => hin m (List.mem_cons_of_mem _ hm)) hd1 hb1 hw1
    refine ⟨b2, ?_, hres⟩
    simp only [put_seq, hput]
    exact hseq

theorem popcount64_sum_le {a b : Nat} (h : a &&& b = 0) : popcount64 a + popcount64 b ≤ 64 := by
  rw [← popcount64_or (fun t _ => not_both_testBit h t)]
  exact popcount64_le _

/-! ## C4: disjointness is an invariant of `put_cpp` -/

/-- C4. For every board with disjoint masks, every mover and every square in
range, legal or not, `put_cpp` returns a board with disjoint masks; and every
board reached from the initial board by a sequence of `put_cpp` calls on
squares in range has disjoint 64-bit masks and at most 64 discs in total. -/
theorem put_cpp_preserves_disjoint (board : OthelloBitBoard) (player row col : Int)
    (moves : List (Int × Int × Int)) (hdisj : Disjoint board) (hr : InRange row col)
    (hmoves : ∀ m ∈ moves, InRange m.2.1 m.2.2) :
    (∃ b', put_cpp board player (row, col) = some b' ∧ Disjoint b') ∧
    (∃ b', put_seq initial_board_cpp moves = some b' ∧ Disjoint b' ∧
      b'.blackBB < 2 ^ 64 ∧ b'.whiteBB < 2 ^ 64 ∧
      popcount64 b'.blackBB + popcount64 b'.whiteBB ≤ 64) := by
  constructor
  · obtain ⟨b', hput, hd, -⟩ := put_cpp_step board player hr hdisj
    exact ⟨b', hput, hd⟩
  · obtain ⟨b', hseq, hd, h1, h2⟩ :=
      put_seq_invariant moves initial_board_cpp hmoves (by decide) (by decide) (by decide)
    exact ⟨b', hseq, hd, h1, h2, popcount64_sum_le hd⟩

/-- C4 at the initial board: one call on the empty square (0, 0), which turns
nothing over, and the run BLACK (2, 4), WHITE (0, 0), BLACK (3, 3). -/
theorem put_cpp_preserves_disjoint_witness :
    Disjoint initial_board_cpp ∧ InRange 0 0 ∧
    (∃ b', put_cpp initial_board_cpp BLACK (0, 0) = some b' ∧ Disjoint b') ∧
    (∃ b', put_seq initial_board_cpp [(BLACK, 2, 4), (WHITE, 0, 0), (BLACK, 3, 3)] = some b' ∧
      Disjoint b' ∧ b'.blackBB < 2 ^ 64 ∧ b'.whiteBB < 2 ^ 64 ∧
      popcount64 b'.blackBB + popcount64 b'.whiteBB ≤ 64) :=
  ⟨by decide, by decide,
    put_cpp_preserves_disjoint initial_board_cpp BLACK 0 0
      [(BLACK, 2, 4), (WHITE, 0, 0), (BLACK, 3, 3)] (by decide) (by decide) (by decide)⟩

/-! ## C5: the disc count along legal moves -/

theorem is_empty_of_can_put (board : OthelloBitBoard) (player : Int) {row col : Int}
    (hr : InRange row col) (h : can_put board player row col = some true) :
    is_empty board row col = true := by
  obtain ⟨F, hF, hemp, -⟩ := compute_flip_sound board player hr
  apply hemp
  unfold can_put at h
  rw [hF] at h
  simpa using h

/-- Along a legal sequence from a board with disjoint masks every call of
`put_cpp` returns, and each move adds exactly one disc to the total. -/
theorem put_seq_count :
    ∀ (moves : List (Int × Int × Int)) (board : OthelloBitBoard),
      Disjoint board → legalSeq board moves = true →
      ∃ b', put_seq board moves = some b' ∧ Disjoint b' ∧
        popcount64 b'.blackBB + popcount64 b'.whiteBB =
          popcount64 board.blackBB + popcount64 board.whiteBB + moves.length := by
  intro moves
  induction moves with
  | nil =>
    intro board hd _
    exact ⟨board, rfl, hd, rfl⟩
  | cons mv rest ih =>
    intro board hd hlegal
    obtain ⟨player, row, col⟩ := mv
    simp only [legalSeq, Bool.and_eq_true, decide_eq_true_eq, beq_iff_eq] at hlegal
    obtain ⟨⟨hr, hcan⟩, hrest⟩ := hlegal
    obtain ⟨b1, hput, hd1, -, hcount, -⟩ := put_cpp_step board player hr hd
    rw [hput] at hrest
    obtain ⟨b2, hseq, hd2, hc2⟩ := ih b1 hd1 hrest
    refine ⟨b2, ?_, hd2, ?_⟩
    · simp only [put_seq, hput]
      exact hseq
    · rw [hc2, hcount (is_empty_of_can_put board player hr hcan), List.length_cons]
      omega

/-- C5. For every sequence of `k` moves that is legal from the initial board
(each square on the board, `can_put` true on the board the move is applied to),
the run of `put_cpp` calls returns a board on which the two population counts
sum to `4 + k`. -/
theorem count_after_legal_moves (moves : List (Int × Int × Int))
    (hlegal : legalSeq initial_board_cpp moves = true) :
    ∃ b', put_seq initial_board_cpp moves = some b' ∧
      (count_discs_cpp b').black + (count_discs_cpp b').white = 4 + moves.length := by
  obtain ⟨b', hseq, -, hc⟩ := put_seq_count moves initial_board_cpp (by decide) hlegal
  refine ⟨b', hseq, ?_⟩
  have h0 : popcount64 initial_board_cpp.blackBB + popcount64 initial_board_cpp.whiteBB = 4 := by
    decide
  simp only [count_discs_cpp]
  omega

/-- C5 on the opening BLACK (2, 4), WHITE (2, 3), BLACK (2, 2): seven discs. -/
theorem count_after_legal_moves_witness :
    legalSeq initial_board_cpp [(BLACK, 2, 4), (WHITE, 2, 3), (BLACK, 2, 2)] = true ∧
    ∃ b', put_seq initial_board_cpp [(BLACK, 2, 4), (WHITE, 2, 3), (BLACK, 2, 2)] = some b' ∧
      (count_discs_cpp b').black + (count_discs_cpp b').white =
        4 + [(BLACK, 2, 4), (WHITE, 2, 3), (BLACK, 2, 2)].length :=
  ⟨by decide,
    count_after_legal_moves [(BLACK, 2, 4), (WHITE, 2, 3), (BLACK, 2, 2)] (by decide)⟩

/-! ## C9: the initial board -/

/-- C9. The initial board has exactly the bits 27 and 36 (squares (3,3) and
(4,4)) in `blackBB` and exactly the bits 28 and 35 (squares (3,4) and (4,3)) in
`whiteBB`, and `count_discs_cpp` gives 2 black and 2 white discs. -/
theorem initial_board_discs :
    initial_board_cpp.blackBB = 2 ^ 27 + 2 ^ 36 ∧
    initial_board_cpp.whiteBB = 2 ^ 28 + 2 ^ 35 ∧
    rc_to_bit 3 3 = 27 ∧ rc_to_bit 4 4 = 36 ∧ rc_to_bit 3 4 = 28 ∧ rc_to_bit 4 3 = 35 ∧
    (∀ t : Nat, initial_board_cpp.blackBB.testBit t = true ↔ (t = 27 ∨ t = 36)) ∧
    (∀ t : Nat, initial_board_cpp.whiteBB.testBit t = true ↔ (t = 28 ∨ t = 35)) ∧
    count_discs_cpp initial_board_cpp = { black := 2, white := 2 } := by
  have hb : initial_board_cpp.blackBB = 2 ^ 27 ||| 2 ^ 36 := by decide
  have hw : initial_board_cpp.whiteBB = 2 ^ 28 ||| 2 ^ 35 := by decide
  refine ⟨by decide, by decide, by decide, by decide, by decide, by decide, ?_, ?_, by decide⟩
  · intro t
    rw [hb, Nat.testBit_or, Nat.testBit_two_pow, Nat.testBit_two_pow]
    simp only [Bool.or_eq_true, decide_eq_true_eq]
    omega
  · intro t
    rw [hw, Nat.testBit_or, Nat.testBit_two_pow, Nat.testBit_two_pow]
    simp only [Bool.or_eq_true, decide_eq_true_eq]
    omega

/-! ## The enumeration of the legal squares -/

theorem mem_loopRange (x : Int) : x ∈ loopRange ↔ 0 ≤ x ∧ x < 8 := by
  simp only [loopRange, List.mem_cons, List.mem_singleton, List.not_mem_nil, or_false]
  omega

theorem can_put_total (board : OthelloBitBoard) (player : Int) {r c : Int} (hr : InRange r c) :
    ∃ ok, can_put board player r c = some ok := by
  obtain ⟨F, hF, -⟩ := compute_flip_sound board player hr
  exact ⟨F != 0, by unfold can_put; rw [hF]; rfl⟩

/-- The loop over the columns returns, and appends the legal squares of the row in column order. -/
theorem foldlM_row_step (board : OthelloBitBoard) (player : Int) {r : Int}
    (hr : 0 ≤ r ∧ r < 8) :
    ∀ (l : List Int), (∀ c ∈ l, 0 ≤ c ∧ c < 8) → ∀ acc : List (Int × Int),
      l.foldlM (row_step board player r) acc =
        some (acc ++ (l.filter (legalAt board player r)).map (fun c => (r, c))) := by
  intro l
  induction l with
  | nil => intro _ acc; simp
  | cons c l ih =>
    intro hl acc
    have hc := hl c (List.mem_cons_self _ _)
    obtain ⟨ok, hok⟩ := can_put_total board player (show InRange r c from ⟨hr.1, hr.2, hc.1, hc.2⟩)
    have hstep : row_step board player r acc c = some (if ok then acc ++ [(r, c)] else acc) := by
      unfold row_step; rw [hok]
    have hleg : legalAt board player r c = ok := by
      unfold legalAt; rw [hok]; cases ok <;> rfl
    rw [List.foldlM_cons, hstep]
    simp only [bind, Option.bind]
    rw [ih (fun c' hc' => hl c' (List.mem_cons_of_mem _ hc')), List.filter_cons, hleg]
    cases ok <;> simp

theorem scan_row_eq (board : OthelloBitBoard) (player : Int) {r : Int} (hr : 0 ≤ r ∧ r < 8)
    (acc : List (Int × Int)) :
    scan_row board player r acc = some (acc ++ rowList board player r) :=
  foldlM_row_step board player hr loopRange (fun c hc => (mem_loopRange c).1 hc) acc

theorem foldlM_scan_row (board : OthelloBitBoard) (player : Int) :
    ∀ (rows : List Int), (∀ r ∈ rows, 0 ≤ r ∧ r < 8) → ∀ acc : List (Int × Int),
      rows.foldlM (fun acc r => scan_row board player r acc) acc =
        some (acc ++ rows.flatMap (rowList board player)) := by
  intro rows
  induction rows with
  | nil => intro _ acc; simp
  | cons r rows ih =>
    intro hrows acc
    rw [List.foldlM_cons, scan_row_eq board player (hrows r (List.mem_cons_self _ _))]
    simp only [bind, Option.bind]
    rw [ih (fun r' hr' => hrows r' (List.mem_cons_of_mem _ hr'))]
    simp

theorem foldlM_merge_step (board : OthelloBitBoard) (player : Int) :
    ∀ (sched : List (List Int)), (∀ r ∈ sched.flatten, 0 ≤ r ∧ r < 8) →
      ∀ moves : List (Int × Int),
      sched.foldlM (merge_step board player) moves =
        some (moves ++ sched.flatten.flatMap (rowList board player)) := by
  intro sched
  induction sched with
  | nil => intro _ moves; simp
  | cons rows sched ih =>
    intro hrows moves
    have h1 : ∀ r ∈ rows, 0 ≤ r ∧ r < 8 := fun r hr =>
      hrows r (by simp only [List.flatten_cons, List.mem_append]; exact Or.inl hr)
    have h2 : ∀ r ∈ sched.flatten, 0 ≤ r ∧ r < 8 := fun r hr =>
      hrows r (by simp only [List.flatten_cons, List.mem_append]; exact Or.inr hr)
    have hstep : merge_step board player moves rows =
        some (moves ++ rows.flatMap (rowList board player)) := by
      unfold merge_step local_moves
      rw [foldlM_scan_row board player rows h1 []]
      simp
    rw [List.foldlM_cons, hstep]
    simp only [bind, Option.bind]
    rw [ih h2]
    simp

/-- Under every schedule that only names rows `0 .. 7`, `get_valid_moves_cpp`
returns the legal squares of the scheduled rows, row after row in the order of
the schedule. -/
theorem get_valid_moves_cpp_eq (board : OthelloBitBoard) (player : Int)
    (sched : List (List Int)) (hrows : ∀ r ∈ sched.flatten, 0 ≤ r ∧ r < 8) :
    get_valid_moves_cpp board player sched =
      some (sched.flatten.flatMap (rowList board player)) := by
  unfold get_valid_moves_cpp
  rw [foldlM_merge_step board player sched hrows []]
  simp

theorem rows_of_validSchedule {sched : List (List Int)} (hs : ValidSchedule sched) :
    ∀ r ∈ sched.flatten, 0 ≤ r ∧ r < 8 :=
  fun r hr => (mem_loopRange r).1 ((List.Perm.mem_iff hs).1 hr)

theorem mem_rowList (board : OthelloBitBoard) (player r : Int) (a b : Int) :
    (a, b) ∈ rowList board player r ↔
      a = r ∧ (0 ≤ b ∧ b < 8) ∧ can_put board player r b = some true := by
  unfold rowList legalAt
  simp only [List.mem_map, List.mem_filter, mem_loopRange, beq_iff_eq, Prod.mk.injEq]
  constructor
  · rintro ⟨c, ⟨hc, hleg⟩, rfl, rfl⟩
    exact ⟨rfl, hc, hleg⟩
  · rintro ⟨rfl, hb, hleg⟩
    exact ⟨b, ⟨hb, hleg⟩, rfl, rfl⟩

theorem rowMajor_rowList (board : OthelloBitBoard) (player r : Int) :
    RowMajor (rowList board player r) := by
  unfold RowMajor rowList
  apply List.Pairwise.map (fun c => (r, c)) (R := fun a b : Int => a < b)
  · intro a b hab
    unfold squareIndex rc_to_bit
    simp only
    omega
  · exact List.Pairwise.filter _ (by decide)

/-- Rows taken in increasing order give a row-major list. -/
theorem rowMajor_flatMap (board : OthelloBitBoard) (player : Int) :
    ∀ rows : List Int, rows.Pairwise (fun a b => a < b) →
      RowMajor (rows.flatMap (rowList board player)) := by
  intro rows
  induction rows with
  | nil => intro _; exact List.Pairwise.nil
  | cons r rows ih =>
    intro hp
    rw [List.pairwise_cons] at hp
    rw [List.flatMap_cons]
    unfold RowMajor
    rw [List.pairwise_append]
    refine ⟨rowMajor_rowList board player r, ih hp.2, ?_⟩
    rintro ⟨a1, b1⟩ h1 ⟨a2, b2⟩ h2
    rw [mem_rowList] at h1
    rw [List.mem_flatMap] at h2
    obtain ⟨r2, hr2, h2⟩ := h2
    rw [mem_rowList] at h2
    have hlt := hp.1 r2 hr2
    obtain ⟨rfl, hb1, -⟩ := h1
    obtain ⟨rfl, hb2, -⟩ := h2
    unfold squareIndex rc_to_bit
    simp only
    omega

theorem nodup_of_rowMajor {moves : List (Int × Int)} (h : RowMajor moves) : moves.Nodup := by
  unfold RowMajor at h
  exact List.Pairwise.imp (fun {a b} hab heq => by rw [heq] at hab; exact lt_irrefl _ hab) h

/-! ## C6: what `get_valid_moves_cpp` returns -/

/-- C6, as stated, fails. On the initial board for BLACK, with the rows 4..7
appended before the rows 0..3, the returned sequence is
`[(4,2), (5,3), (2,4), (3,5)]`: not in row-major order, and different from the
sequence returned when one worker runs the whole loop. -/
theorem get_valid_moves_cpp_order_depends_on_schedule :
    ValidSchedule [[4, 5, 6, 7], [0, 1, 2, 3]] ∧ ValidSchedule oneWorker ∧
    get_valid_moves_cpp initial_board_cpp BLACK [[4, 5, 6, 7], [0, 1, 2, 3]] =
      some [(4, 2), (5, 3), (2, 4), (3, 5)] ∧
    ¬ RowMajor [(4, 2), (5, 3), (2, 4), (3, 5)] ∧
    get_valid_moves_cpp initial_board_cpp BLACK oneWorker =
      some [(2, 4), (3, 5), (4, 2), (5, 3)] ∧
    get_valid_moves_cpp initial_board_cpp BLACK [[4, 5, 6, 7], [0, 1, 2, 3]] ≠
      get_valid_moves_cpp initial_board_cpp BLACK oneWorker := by
  decide

/-- C6, amended. For every board and mover and every schedule that executes
each row `0 .. 7` once, `get_valid_moves_cpp` returns exactly the squares in
range on which `can_put` holds, each exactly once; the list is a permutation of
the one returned when a single worker runs the loop, and that one is in
row-major order. -/
theorem get_valid_moves_cpp_exact (board : OthelloBitBoard) (player : Int)
    (sched : List (List Int)) (hs : ValidSchedule sched) :
    ∃ moves, get_valid_moves_cpp board player sched = some moves ∧
      (∀ r c : Int, (r, c) ∈ moves ↔ InRange r c ∧ can_put board player r c = some true) ∧
      moves.Nodup ∧
      ∃ sorted, get_valid_moves_cpp board player oneWorker = some sorted ∧
        RowMajor sorted ∧ List.Perm moves sorted := by
  have hone : get_valid_moves_cpp board player oneWorker =
      some (loopRange.flatMap (rowList board player)) := by
    rw [get_valid_moves_cpp_eq board player oneWorker
      (fun r hr => (mem_loopRange r).1 (by simpa [oneWorker] using hr))]
    simp [oneWorker]
  have hsorted : RowMajor (loopRange.flatMap (rowList board player)) :=
    rowMajor_flatMap board player loopRange (by decide)
  have hperm : List.Perm (sched.flatten.flatMap (rowList board player))
      (loopRange.flatMap (rowList board player)) := List.Perm.flatMap_right _ hs
  refine ⟨_, get_valid_moves_cpp_eq board player sched (rows_of_validSchedule hs), ?_, ?_,
    _, hone, hsorted, hperm⟩
  · intro r c
    rw [List.mem_flatMap]
    constructor
    · rintro ⟨r', hr', hmem⟩
      rw [mem_rowList] at hmem
      obtain ⟨rfl, hc, hleg⟩ := hmem
      have := rows_of_validSchedule hs r hr'
      exact ⟨⟨this.1, this.2, hc.1, hc.2⟩, hleg⟩
    · rintro ⟨⟨h1, h2, h3, h4⟩, hleg⟩
      refine ⟨r, (List.Perm.mem_iff hs).2 ((mem_loopRange r).2 ⟨h1, h2⟩), ?_⟩
      rw [mem_rowList]
      exact ⟨rfl, ⟨h3, h4⟩, hleg⟩
  · exact (List.Perm.nodup_iff hperm).2 (nodup_of_rowMajor hsorted)

/-- C6, amended, on the initial board for BLACK with two workers finishing in reverse order. -/
theorem get_valid_moves_cpp_exact_witness :
    ValidSchedule [[4, 5, 6, 7], [0, 1, 2, 3]] ∧
    ∃ moves, get_valid_moves_cpp initial_board_cpp BLACK [[4, 5, 6, 7], [0, 1, 2, 3]] =
        some moves ∧
      (∀ r c : Int, (r, c) ∈ moves ↔
        InRange r c ∧ can_put initial_board_cpp BLACK r c = some true) ∧
      moves.Nodup ∧
      ∃ sorted, get_valid_moves_cpp initial_board_cpp BLACK oneWorker = some sorted ∧
        RowMajor sorted ∧ List.Perm moves sorted :=
  ⟨by decide,
    get_valid_moves_cpp_exact initial_board_cpp BLACK [[4, 5, 6, 7], [0, 1, 2, 3]] (by decide)⟩

/-! ## C7: the order of the merge -/

/-- C7, as stated, fails. On the initial board for WHITE, with three workers
holding the rows 0..2, 3..5 and 6..7 and finishing in the order third, second,
first, the local lists are appended in that completion order and the output
`[(3,2), (4,5), (5,4), (2,3)]` is not in row-major order. -/
theorem get_valid_moves_cpp_merges_in_completion_order :
    ValidSchedule [[6, 7], [3, 4, 5], [0, 1, 2]] ∧
    local_moves initial_board_cpp WHITE [6, 7] = some [] ∧
    local_moves initial_board_cpp WHITE [3, 4, 5] = some [(3, 2), (4, 5), (5, 4)] ∧
    local_moves initial_board_cpp WHITE [0, 1, 2] = some [(2, 3)] ∧
    get_valid_moves_cpp initial_board_cpp WHITE [[6, 7], [3, 4, 5], [0, 1, 2]] =
      some [(3, 2), (4, 5), (5, 4), (2, 3)] ∧
    ¬ RowMajor [(3, 2), (4, 5), (5, 4), (2, 3)] := by
  decide

/-- C7, amended. For every board and mover, when the workers append their
local lists in the order of their rows (the rows of the schedule, read in
completion order, are `0, 1, .., 7`), the output of `get_valid_moves_cpp` is in
row-major order and is the list returned by a single worker. -/
theorem get_valid_moves_cpp_row_major (board : OthelloBitBoard) (player : Int)
    (sched : List (List Int)) (hs : sched.flatten = loopRange) :
    ∃ moves, get_valid_moves_cpp board player sched = some moves ∧ RowMajor moves ∧
      get_valid_moves_cpp board player oneWorker = some moves := by
  have hrows : ∀ r ∈ sched.flatten, 0 ≤ r ∧ r < 8 := by
    rw [hs]; exact fun r hr => (mem_loopRange r).1 hr
  refine ⟨_, get_valid_moves_cpp_eq board player sched hrows, ?_, ?_⟩
  · rw [hs]
    exact rowMajor_flatMap board player loopRange (by decide)
  · rw [get_valid_moves_cpp_eq board player oneWorker
      (fun r hr => (mem_loopRange r).1 (by simpa [oneWorker] using hr)), hs]
    simp [oneWorker]

/-- C7, amended, on the initial board for WHITE with three workers finishing in row order. -/
theorem get_valid_moves_cpp_row_major_witness :
    [[0, 1, 2], [3, 4, 5], [6, 7]].flatten = loopRange ∧
    ∃ moves, get_valid_moves_cpp initial_board_cpp WHITE [[0, 1, 2], [3, 4, 5], [6, 7]] =
        some moves ∧ RowMajor moves ∧
      get_valid_moves_cpp initial_board_cpp WHITE oneWorker = some moves :=
  ⟨by decide,
    get_valid_moves_cpp_row_major initial_board_cpp WHITE [[0, 1, 2], [3, 4, 5], [6, 7]]
      (by decide)⟩

/-! ## C8: the legal squares of the initial board -/

/-- C8, as stated, fails. On the initial board a single worker returns
`[(2,4), (3,5), (4,2), (5,3)]` for BLACK, not `[(2,3), (3,2), (4,5), (5,4)]`:
BLACK owns (3,3) and (4,4), so on (2,3) the square below is its own and
nothing is turned over. -/
theorem initial_moves_black_differ :
    get_valid_moves_cpp initial_board_cpp BLACK oneWorker =
      some [(2, 4), (3, 5), (4, 2), (5, 3)] ∧
    get_valid_moves_cpp initial_board_cpp BLACK oneWorker ≠
      some [(2, 3), (3, 2), (4, 5), (5, 4)] ∧
    is_occupied initial_board_cpp.blackBB 3 3 = true ∧
    compute_flip initial_board_cpp BLACK 2 3 = some 0 ∧
    can_put initial_board_cpp BLACK 2 3 = some false := by
  decide

/-- C8, amended. On the initial board, under every schedule that executes each
row once, `get_valid_moves_cpp` for BLACK returns the four squares (2,4),
(3,5), (4,2), (5,3) and no other; a single worker returns them as the row-major
sequence `[(2,4), (3,5), (4,2), (5,3)]`; the sequence
`[(2,3), (3,2), (4,5), (5,4)]` is the one returned for WHITE. -/
theorem initial_moves (sched : List (List Int)) (hs : ValidSchedule sched) :
    (∃ moves, get_valid_moves_cpp initial_board_cpp BLACK sched = some moves ∧
      List.Perm moves [(2, 4), (3, 5), (4, 2), (5, 3)]) ∧
    get_valid_moves_cpp initial_board_cpp BLACK oneWorker =
      some [(2, 4), (3, 5), (4, 2), (5, 3)] ∧
    RowMajor [(2, 4), (3, 5), (4, 2), (5, 3)] ∧
    get_valid_moves_cpp initial_board_cpp WHITE oneWorker =
      some [(2, 3), (3, 2), (4, 5), (5, 4)] := by
  refine ⟨?_, by decide, by decide, by decide⟩
  refine ⟨_, get_valid_moves_cpp_eq initial_board_cpp BLACK sched (rows_of_validSchedule hs), ?_⟩
  have h : loopRange.flatMap (rowList initial_board_cpp BLACK) =
      [(2, 4), (3, 5), (4, 2), (5, 3)] := by decide
  rw [← h]
  exact List.Perm.flatMap_right _ hs

/-- C8, amended, with two workers finishing in reverse order. -/
theorem initial_moves_witness :
    ValidSchedule [[4, 5, 6, 7], [0, 1, 2, 3]] ∧
    (∃ moves, get_valid_moves_cpp initial_board_cpp BLACK [[4, 5, 6, 7], [0, 1, 2, 3]] =
        some moves ∧ List.Perm moves [(2, 4), (3, 5), (4, 2), (5, 3)]) ∧
    get_valid_moves_cpp initial_board_cpp BLACK oneWorker =
      some [(2, 4), (3, 5), (4, 2), (5, 3)] ∧
    RowMajor [(2, 4), (3, 5), (4, 2), (5, 3)] ∧
    get_valid_moves_cpp initial_board_cpp WHITE oneWorker =
      some [(2, 3), (3, 2), (4, 5), (5, 4)] :=
  ⟨by decide, initial_moves [[4, 5, 6, 7], [0, 1, 2, 3]] (by decide)⟩

/-! ## C11: the flip set lies inside the enemy mask -/

/-- C11. For every board, every mover and every square in range,
`compute_flip` returns a mask `F` that is a subset of the enemy mask
(`F & enemyBB = F`) and does not contain the bit of the square itself. -/
theorem compute_flip_subset_enemy (board : OthelloBitBoard) (player row col : Int)
    (hr : InRange row col) :
    ∃ F, compute_flip board player row col = some F ∧
      F &&& maskOf board (opponentOf player) = F ∧
      F.testBit (rc_to_bit row col).toNat = false ∧
      F &&& mask_rc row col = 0 := by
  obtain ⟨F, hF, hemp, hbits⟩ := compute_flip_sound board player hr
  have hself : F.testBit (rc_to_bit row col).toNat = false := by
    cases hb : F.testBit (rc_to_bit row col).toNat
    · rfl
    · exfalso
      have hne : F ≠ 0 := by
        intro h0
        rw [h0] at hb
        simp at hb
      have he := hemp hne
      rw [is_empty_eq_testBit board hr] at he
      simp only [Bool.not_eq_true', Bool.or_eq_false_iff] at he
      have hen := (hbits _ hb).2
      unfold maskOf at hen
      split at hen
      · rw [he.1] at hen; cases hen
      · rw [he.2] at hen; cases hen
  refine ⟨F, hF, ?_, hself, ?_⟩
  · apply Nat.eq_of_testBit_eq
    intro t
    rw [Nat.testBit_and]
    cases hb : F.testBit t
    · rfl
    · rw [(hbits t hb).2]; rfl
  · apply eq_zero_of_testBit
    intro t
    rw [Nat.testBit_and, mask_rc_of_inRange hr, Nat.testBit_two_pow]
    by_cases ht : (rc_to_bit row col).toNat = t
    · subst ht
      rw [hself]; rfl
    · simp [ht]

/-- C11 at the initial board: BLACK on (2, 4). -/
theorem compute_flip_subset_enemy_witness :
    InRange 2 4 ∧
    ∃ F, compute_flip initial_board_cpp BLACK 2 4 = some F ∧
      F &&& maskOf initial_board_cpp (opponentOf BLACK) = F ∧
      F.testBit (rc_to_bit 2 4).toNat = false ∧
      F &&& mask_rc 2 4 = 0 :=
  ⟨by decide, compute_flip_subset_enemy initial_board_cpp BLACK 2 4 (by decide)⟩

/-! ## C17: colour symmetry of `compute_flip` -/

/-- C17. For every board, every mover in {BLACK, WHITE} and every square,
`compute_flip` on the board with the colours exchanged, for the opponent of the
mover, returns what `compute_flip` returns on the board for the mover. -/
theorem compute_flip_color_symmetric (board : OthelloBitBoard) (player row col : Int)
    (hp : player = BLACK ∨ player = WHITE) :
    compute_flip (swap_colors board) (change_turn_cpp player) row col =
      compute_flip board player row col := by
  have hwb : WHITE ≠ BLACK := by decide
  have he : is_empty (swap_colors board) row col = is_empty board row col := by
    unfold is_empty swap_colors
    simp only
    rw [Nat.lor_comm]
  unfold compute_flip
  rw [he]
  rcases hp with rfl | rfl
  · simp [swap_colors, change_turn_cpp, hwb]
  · simp [swap_colors, change_turn_cpp, hwb]

/-- C17 at the initial board: WHITE on (2, 3) against BLACK on the exchanged board. -/
theorem compute_flip_color_symmetric_witness :
    (WHITE = BLACK ∨ WHITE = WHITE) ∧
    compute_flip (swap_colors initial_board_cpp) (change_turn_cpp WHITE) 2 3 =
      compute_flip initial_board_cpp WHITE 2 3 :=
  ⟨Or.inr rfl, compute_flip_color_symmetric initial_board_cpp WHITE 2 3 (Or.inr rfl)⟩

/-! ## C18: `change_turn_cpp` -/

/-- C18. `change_turn_cpp` maps BLACK to WHITE and WHITE to BLACK; on a mover
in {BLACK, WHITE} applying it twice gives the mover back, and applying it once
gives a different mover. -/
theorem change_turn_cpp_opponent :
    change_turn_cpp BLACK = WHITE ∧ change_turn_cpp WHITE = BLACK ∧
    ∀ m : Int, m = BLACK ∨ m = WHITE →
      change_turn_cpp (change_turn_cpp m) = m ∧ change_turn_cpp m ≠ m := by
  refine ⟨by decide, by decide, ?_⟩
  rintro m (rfl | rfl) <;> decide

/-! ## C14: `simulate_game_cpp` without trials -/

/-- C14. For every board, every start mover and every `num_sim <= 0`,
`simulate_game_cpp` returns 0, whatever the environments and whatever the fuel
left to the playouts, even none at all: no playout is run. -/
theorem simulate_game_cpp_no_trials (fuel : Nat) (envs : Nat → Nat → List (List Int) × Nat)
    (board : OthelloBitBoard) (startPlayer num_sim : Int) (h : num_sim ≤ 0) :
    simulate_game_cpp fuel envs board startPlayer num_sim = some 0 ∧
    simulate_game_cpp 0 envs board startPlayer num_sim = some 0 := by
  unfold simulate_game_cpp
  simp [h]

/-- C14 on the initial board with `num_sim = -3`. -/
theorem simulate_game_cpp_no_trials_witness :
    (-3 : Int) ≤ 0 ∧
    simulate_game_cpp 7 (fun _ _ => (oneWorker, 0)) initial_board_cpp BLACK (-3) = some 0 ∧
    simulate_game_cpp 0 (fun _ _ => (oneWorker, 0)) initial_board_cpp BLACK (-3) = some 0 :=
  ⟨by decide,
    simulate_game_cpp_no_trials 7 (fun _ _ => (oneWorker, 0)) initial_board_cpp BLACK (-3)
      (by decide)⟩

/-! ## C12: the grid of legal squares -/

/-- The loop over the columns of `get_valid_board_cpp` returns, and writes the
flag of every column it visits. -/
theorem foldlM_board_cell (board : OthelloBitBoard) (player : Int) {r : Int}
    (hr : 0 ≤ r ∧ r < 8) :
    ∀ (l : List Int), (∀ c ∈ l, 0 ≤ c ∧ c < 8) → ∀ buf : Int → Int → Int,
      l.foldlM (board_cell board player r) buf =
        some (fun r' c' => if r' = r ∧ c' ∈ l then (if legalAt board player r c' then 1 else 0)
          else buf r' c') := by
  intro l
  induction l with
  | nil => intro _ buf; simp
  | cons c l ih =>
    intro hl buf
    have hc := hl c (List.mem_cons_self _ _)
    obtain ⟨ok, hok⟩ := can_put_total board player (show InRange r c from ⟨hr.1, hr.2, hc.1, hc.2⟩)
    have hleg : legalAt board player r c = ok := by
      unfold legalAt; rw [hok]; cases ok <;> rfl
    have hstep : board_cell board player r buf c =
        some (grid_write buf r c (if ok then 1 else 0)) := by
      unfold board_cell; rw [hok]
    rw [List.foldlM_cons, hstep]
    simp only [bind, Option.bind]
    rw [ih (fun c' hc' => hl c' (List.mem_cons_of_mem _ hc'))]
    congr 1
    funext r' c'
    unfold grid_write
    by_cases h1 : r' = r
    · by_cases h2 : c' = c
      · subst h1; subst h2
        by_cases h3 : c' ∈ l <;> simp [h3, hleg]
      · simp [h1, h2]
    · simp [h1]

theorem foldlM_board_row (board : OthelloBitBoard) (player : Int) :
    ∀ (rows : List Int), (∀ r ∈ rows, 0 ≤ r ∧ r < 8) → ∀ buf : Int → Int → Int,
      rows.foldlM (board_row board player) buf =
        some (fun r' c' => if r' ∈ rows ∧ c' ∈ loopRange then
            (if legalAt board player r' c' then 1 else 0)
          else buf r' c') := by
  intro rows
  induction rows with
  | nil => intro _ buf; simp
  | cons r rows ih =>
    intro hrows buf
    have hstep : board_row board player buf r = _ :=
      foldlM_board_cell board player (hrows r (List.mem_cons_self _ _)) loopRange
        (fun c hc => (mem_loopRange c).1 hc) buf
    rw [List.foldlM_cons, hstep]
    simp only [bind, Option.bind]
    rw [ih (fun r' hr' => hrows r' (List.mem_cons_of_mem _ hr'))]
    congr 1
    funext r' c'
    by_cases h1 : r' = r
    · subst h1
      by_cases h2 : c' ∈ loopRange <;> by_cases h3 : r' ∈ rows <;> simp [h2, h3]
    · by_cases h2 : c' ∈ loopRange <;> by_cases h3 : r' ∈ rows <;> simp [h1, h2, h3]

/-- C12. For every board and mover, whatever the order in which the rows are
executed and whatever the array held before, `get_valid_board_cpp` returns a
grid whose entry at every square `(r, c)` in range is 0 or 1, is 1 exactly
when `can_put(board, mover, r, c)` holds, and is 1 exactly when `(r, c)` occurs
in the list returned by `get_valid_moves_cpp`, under every schedule. -/
theorem get_valid_board_cpp_flags (board : OthelloBitBoard) (player : Int) (rows : List Int)
    (init : Int → Int → Int) (hrows : List.Perm rows loopRange) :
    ∃ g, get_valid_board_cpp board player rows init = some g ∧
      ∀ r c : Int, InRange r c →
        (g r c = 0 ∨ g r c = 1) ∧
        (g r c = 1 ↔ can_put board player r c = some true) ∧
        ∀ sched : List (List Int), ValidSchedule sched →
          ∃ moves, get_valid_moves_cpp board player sched = some moves ∧
            (g r c = 1 ↔ (r, c) ∈ moves) := by
  have hin : ∀ r ∈ rows, 0 ≤ r ∧ r < 8 :=
    fun r hr => (mem_loopRange r).1 ((List.Perm.mem_iff hrows).1 hr)
  refine ⟨_, foldlM_board_row board player rows hin init, ?_⟩
  rintro r c ⟨h1, h2, h3, h4⟩
  have hr : r ∈ rows := (List.Perm.mem_iff hrows).2 ((mem_loopRange r).2 ⟨h1, h2⟩)
  have hc : c ∈ loopRange := (mem_loopRange c).2 ⟨h3, h4⟩
  have hval : (if r ∈ rows ∧ c ∈ loopRange then (if legalAt board player r c then (1 : Int) else 0)
      else init r c) = if legalAt board player r c then 1 else 0 := by
    rw [if_pos ⟨hr, hc⟩]
  have hone : (if legalAt board player r c then (1 : Int) else 0) = 1 ↔
      can_put board player r c = some true := by
    unfold legalAt
    by_cases h : can_put board player r c = some true <;> simp [h]
  simp only [hval]
  refine ⟨?_, hone, ?_⟩
  · by_cases h : legalAt board player r c = true <;> simp [h]
  · intro sched hs
    refine ⟨_, get_valid_moves_cpp_eq board player sched (rows_of_validSchedule hs), ?_⟩
    rw [hone, List.mem_flatMap]
    constructor
    · intro hleg
      exact ⟨r, (List.Perm.mem_iff hs).2 ((mem_loopRange r).2 ⟨h1, h2⟩),
        (mem_rowList board player r r c).2 ⟨rfl, ⟨h3, h4⟩, hleg⟩⟩
    · rintro ⟨r', -, hmem⟩
      rw [mem_rowList] at hmem
      obtain ⟨rfl, -, hleg⟩ := hmem
      exact hleg

/-- C12 on the initial board for BLACK, the rows being executed from the last to the first. -/
theorem get_valid_board_cpp_flags_witness :
    List.Perm [7, 6, 5, 4, 3, 2, 1, 0] loopRange ∧
    ∃ g, get_valid_board_cpp initial_board_cpp BLACK [7, 6, 5, 4, 3, 2, 1, 0]
        (fun _ _ => 7) = some g ∧
      ∀ r c : Int, InRange r c →
        (g r c = 0 ∨ g r c = 1) ∧
        (g r c = 1 ↔ can_put initial_board_cpp BLACK r c = some true) ∧
        ∀ sched : List (List Int), ValidSchedule sched →
          ∃ moves, get_valid_moves_cpp initial_board_cpp BLACK sched = some moves ∧
            (g r c = 1 ↔ (r, c) ∈ moves) :=
  ⟨by decide,
    get_valid_board_cpp_flags initial_board_cpp BLACK [7, 6, 5, 4, 3, 2, 1, 0] (fun _ _ => 7)
      (by decide)⟩

/-! ## C13: the encoded tensor -/

/-- A loop over columns that writes `v` into the cells selected by `cond`. -/
theorem foldl_write_cols (cond : Int → Int → Bool) (ch r v : Int) :
    ∀ (cols : List Int) (buf : Int → Int → Int → Int),
      cols.foldl (fun buf c => if cond r c then tensor_write buf ch r c v else buf) buf =
        fun ch' r' c' =>
          if ch' = ch ∧ r' = r ∧ c' ∈ cols ∧ cond r c' = true then v else buf ch' r' c' := by
  intro cols
  induction cols with
  | nil => intro buf; simp
  | cons c cols ih =>
    intro buf
    rw [List.foldl_cons, ih]
    funext ch' r' c'
    by_cases h1 : ch' = ch ∧ r' = r
    · obtain ⟨rfl, rfl⟩ := h1
      by_cases h2 : c' = c
      · subst h2
        by_cases h3 : cond r' c' = true
        · by_cases h4 : c' ∈ cols <;> simp [h3, h4, tensor_write]
        · simp [h3]
      · by_cases h3 : cond r' c = true <;> simp [h2, h3, tensor_write]
    · have h1' : ¬ (ch' = ch ∧ r' = r ∧ c' = c) := fun h => h1 ⟨h.1, h.2.1⟩
      by_cases h3 : cond r c = true
      · simp only [h3, if_true, tensor_write, if_neg h1']
        by_cases h5 : ch' = ch <;> by_cases h6 : r' = r <;> simp_all
      · simp only [h3]
        by_cases h5 : ch' = ch <;> by_cases h6 : r' = r <;> simp_all

/-- A loop nest over rows and columns that writes `v` into the cells selected by `cond`. -/
theorem foldl_write_cells (cond : Int → Int → Bool) (ch v : Int) (cols : List Int) :
    ∀ (rows : List Int) (buf : Int → Int → Int → Int),
      rows.foldl (fun buf r =>
          cols.foldl (fun buf c => if cond r c then tensor_write buf ch r c v else buf) buf) buf =
        fun ch' r' c' =>
          if ch' = ch ∧ r' ∈ rows ∧ c' ∈ cols ∧ cond r' c' = true then v else buf ch' r' c' := by
  intro rows
  induction rows with
  | nil => intro buf; simp
  | cons r rows ih =>
    intro buf
    rw [List.foldl_cons, ih, foldl_write_cols]
    funext ch' r' c'
    by_cases h1 : r' = r
    · subst h1
      by_cases h2 : ch' = ch ∧ c' ∈ cols ∧ cond r' c' = true
      · obtain ⟨h3, h4, h5⟩ := h2
        by_cases h6 : r' ∈ rows <;> simp [h3, h4, h5, h6]
      · by_cases h6 : r' ∈ rows <;> by_cases h3 : ch' = ch <;> by_cases h4 : c' ∈ cols <;>
          by_cases h5 : cond r' c' = true <;> simp_all
    · by_cases h6 : r' ∈ rows <;> simp [h1, h6]

theorem proc_plane_eq (bb : Nat) (ch : Int) (buf : Int → Int → Int → Int) :
    proc_plane bb ch buf = fun ch' r' c' =>
      if ch' = ch ∧ r' ∈ loopRange ∧ c' ∈ loopRange ∧ is_occupied bb r' c' = true then 1
      else buf ch' r' c' :=
  foldl_write_cells (fun r c => is_occupied bb r c) ch 1 loopRange loopRange buf

theorem fill_plane_eq (ch v : Int) (buf : Int → Int → Int → Int) :
    loopRange.foldl
        (fun buf r => loopRange.foldl (fun buf c => tensor_write buf ch r c v) buf) buf =
      fun ch' r' c' =>
        if ch' = ch ∧ r' ∈ loopRange ∧ c' ∈ loopRange then v else buf ch' r' c' := by
  have h := foldl_write_cells (fun _ _ => true) ch v loopRange loopRange buf
  simpa using h

theorem proc_turn_eq (buf : Int → Int → Int → Int) :
    proc_turn buf = fun ch' r' c' =>
      if ch' = 2 ∧ r' ∈ loopRange ∧ c' ∈ loopRange then 1 else buf ch' r' c' :=
  fill_plane_eq 2 1 buf

theorem proc_zero_eq (buf : Int → Int → Int → Int) :
    proc_zero buf = fun ch' r' c' =>
      if (ch' = 0 ∨ ch' = 1 ∨ ch' = 2) ∧ r' ∈ loopRange ∧ c' ∈ loopRange then 0
      else buf ch' r' c' := by
  unfold proc_zero
  simp only [List.foldl_cons, List.foldl_nil, fill_plane_eq]
  funext ch' r' c'
  by_cases h0 : ch' = 0 <;> by_cases h1 : ch' = 1 <;> by_cases h2 : ch' = 2 <;>
    by_cases hr : r' ∈ loopRange <;> by_cases hc : c' ∈ loopRange <;> simp_all

/-- C13. For every board, every mover, every content of the array before and
every square `(r, c)` in range, the tensor of `proc_board_cpp` holds in
channel 0 the value 1 if bit `r * 8 + c` of `blackBB` is set and 0 otherwise,
in channel 1 the same for `whiteBB`, and in channel 2 the value 1 if the mover
is BLACK and 0 otherwise. -/
theorem proc_board_cpp_channels (board : OthelloBitBoard) (player : Int)
    (init : Int → Int → Int → Int) (r c : Int) (hr : InRange r c) :
    proc_board_cpp board player init 0 r c =
      (if board.blackBB.testBit (rc_to_bit r c).toNat = true then 1 else 0) ∧
    proc_board_cpp board player init 1 r c =
      (if board.whiteBB.testBit (rc_to_bit r c).toNat = true then 1 else 0) ∧
    proc_board_cpp board player init 2 r c = (if player = BLACK then 1 else 0) := by
  have h1 : r ∈ loopRange := (mem_loopRange r).2 ⟨hr.1, hr.2.1⟩
  have h2 : c ∈ loopRange := (mem_loopRange c).2 ⟨hr.2.2.1, hr.2.2.2⟩
  have hb := is_occupied_eq_testBit board.blackBB hr
  have hw := is_occupied_eq_testBit board.whiteBB hr
  unfold proc_board_cpp
  simp only [proc_zero_eq, proc_plane_eq, proc_turn_eq]
  by_cases hp : player = BLACK
  · simp [hp, h1, h2, hb, hw]
  · simp [hp, h1, h2, hb, hw]

/-- C13 at the initial board, mover WHITE, square (3, 3), which holds a black disc. -/
theorem proc_board_cpp_channels_witness :
    InRange 3 3 ∧
    proc_board_cpp initial_board_cpp WHITE (fun _ _ _ => 9) 0 3 3 =
      (if initial_board_cpp.blackBB.testBit (rc_to_bit 3 3).toNat = true then 1 else 0) ∧
    proc_board_cpp initial_board_cpp WHITE (fun _ _ _ => 9) 1 3 3 =
      (if initial_board_cpp.whiteBB.testBit (rc_to_bit 3 3).toNat = true then 1 else 0) ∧
    proc_board_cpp initial_board_cpp WHITE (fun _ _ _ => 9) 2 3 3 =
      (if WHITE = BLACK then 1 else 0) :=
  ⟨by decide,
    proc_board_cpp_channels initial_board_cpp WHITE (fun _ _ _ => 9) 3 3 (by decide)⟩

/-! ## One move of a playout -/

/-- The occupied set after a placement: the old one and the new square. -/
theorem placed_occupied {m o F n : Nat}
    (hF : ∀ t : Nat, F.testBit t = true → t < 64 ∧ o.testBit t = true) (t : Nat) (ht : t < 64) :
    ((((m ||| 2 ^ n) ||| F) ||| (o &&& not64 F)).testBit t) =
      ((m ||| o).testBit t || decide (n = t)) := by
  simp only [Nat.testBit_or, testBit_land_not64 _ _ _ ht, Nat.testBit_two_pow]
  cases hFt : F.testBit t
  · cases m.testBit t <;> cases o.testBit t <;> cases decide (n = t) <;> rfl
  · rw [(hF t hFt).2]
    cases m.testBit t <;> cases decide (n = t) <;> rfl

theorem popcount64_add_bit {x y n : Nat} (hn : n < 64) (hx : x.testBit n = false)
    (hy : ∀ t : Nat, t < 64 → y.testBit t = (x.testBit t || decide (n = t))) :
    popcount64 y = popcount64 x + 1 := by
  have h1 : popcount64 y = popcount64 (x ||| 2 ^ n) := by
    apply popcount64_congr
    intro t ht
    rw [hy t ht, Nat.testBit_or, Nat.testBit_two_pow]
  rw [h1, popcount64_or, popcount64_two_pow hn]
  intro t _ hboth
  rw [Nat.testBit_two_pow] at hboth
  have hnt : n = t := by simpa using hboth.2
  subst hnt
  rw [hx] at hboth
  exact absurd hboth.1 (by simp)

/-- A move on a square in range that `can_put` accepts fills an empty square. -/
theorem fillsEmptySquare_of_can_put (board : OthelloBitBoard) (player : Int) {row col : Int}
    (hr : InRange row col) (hcan : can_put board player row col = some true) :
    FillsEmptySquare (board, player, (row, col)) := by
  have he := is_empty_of_can_put board player hr hcan
  obtain ⟨F, -, hbits, hput⟩ := put_cpp_eq board player hr
  rw [if_pos he] at hput
  have hb := rc_to_bit_bounds hr
  have hn : (rc_to_bit row col).toNat < 64 := by omega
  have he2 := he
  rw [is_empty_eq_testBit board hr] at he2
  simp only [Bool.not_eq_true', Bool.or_eq_false_iff] at he2
  have hwb : WHITE ≠ BLACK := by decide
  have hdec : ∀ t : Nat, decide ((rc_to_bit row col).toNat = t) =
      decide ((t : Int) = rc_to_bit row col) := by
    intro t
    by_cases h : (t : Int) = rc_to_bit row col
    · have h2 : (rc_to_bit row col).toNat = t := by omega
      simp [h, h2]
    · have h2 : ¬ (rc_to_bit row col).toNat = t := by omega
      simp [h, h2]
  have hocc : ∀ next : OthelloBitBoard,
      (∀ t : Nat, t < 64 → (occupied next).testBit t =
        ((occupied board).testBit t || decide ((rc_to_bit row col).toNat = t))) →
      (∀ t : Nat, t < 64 → (occupied next).testBit t =
        ((occupied board).testBit t || decide ((t : Int) = rc_to_bit row col))) ∧
      popcount64 (occupied next) = popcount64 (occupied board) + 1 := by
    intro next h
    refine ⟨fun t ht => by rw [h t ht, hdec], popcount64_add_bit hn ?_ h⟩
    unfold occupied
    rw [Nat.testBit_or, he2.1, he2.2]
    rfl
  refine ⟨hr, he, _, hput, ?_⟩
  apply hocc
  intro t ht
  by_cases hp : player = BLACK
  · have hbits2 : ∀ t : Nat, F.testBit t = true → t < 64 ∧ board.whiteBB.testBit t = true := by
      intro t ht
      have := hbits t ht
      simpa [maskOf, opponentOf, hp, hwb] using this
    simp only [occupied, if_pos hp]
    rw [mask_rc_of_inRange hr]
    exact placed_occupied hbits2 t ht
  · have hbits2 : ∀ t : Nat, F.testBit t = true → t < 64 ∧ board.blackBB.testBit t = true := by
      intro t ht
      have := hbits t ht
      simpa [maskOf, opponentOf, hp] using this
    simp only [occupied, if_neg hp]
    rw [mask_rc_of_inRange hr, Nat.lor_comm (board.blackBB &&& not64 F),
      placed_occupied hbits2 t ht, Nat.lor_comm board.whiteBB]

/-! ## The playout loop -/

theorem noMoves_of_nil {board : OthelloBitBoard} {player : Int} {sched : List (List Int)}
    (hs : ValidSchedule sched) (h : get_valid_moves_cpp board player sched = some []) :
    NoMoves board player := by
  rw [get_valid_moves_cpp_eq board player sched (rows_of_validSchedule hs)] at h
  have h0 : sched.flatten.flatMap (rowList board player) = [] := Option.some.inj h
  rw [List.flatMap_eq_nil_iff] at h0
  intro sched2 hs2
  rw [get_valid_moves_cpp_eq board player sched2 (rows_of_validSchedule hs2)]
  congr 1
  rw [List.flatMap_eq_nil_iff]
  intro r hr
  exact h0 r ((List.Perm.mem_iff hs).2 ((List.Perm.mem_iff hs2).1 hr))

theorem mem_valid_moves {board : OthelloBitBoard} {player : Int} {sched : List (List Int)}
    (hs : ValidSchedule sched) {moves : List (Int × Int)}
    (h : get_valid_moves_cpp board player sched = some moves) {mv : Int × Int}
    (hmv : mv ∈ moves) : InRange mv.1 mv.2 ∧ can_put board player mv.1 mv.2 = some true := by
  rw [get_valid_moves_cpp_eq board player sched (rows_of_validSchedule hs)] at h
  have h0 := Option.some.inj h
  rw [← h0, List.mem_flatMap] at hmv
  obtain ⟨r, hr, hmem⟩ := hmv
  obtain ⟨a, b⟩ := mv
  rw [mem_rowList] at hmem
  obtain ⟨rfl, hb, hleg⟩ := hmem
  have := rows_of_validSchedule hs a hr
  exact ⟨⟨this.1, this.2, hb.1, hb.2⟩, hleg⟩

theorem change_turn_cpp_mem {player : Int} (hp : player = BLACK ∨ player = WHITE) :
    (change_turn_cpp player = BLACK ∨ change_turn_cpp player = WHITE) ∧
    change_turn_cpp (change_turn_cpp player) = player := by
  rcases hp with rfl | rfl <;> decide

/-- The loop of `single_playout`, entered with a pass counter of 0 or 1 and
with fuel for two iterations per empty square and two more: it breaks, every
move it records was drawn from the valid moves and fills an empty square, the
occupied set has grown by one square per move, and when the mover is BLACK or
WHITE and a pass counter of 1 stands for a pass of the other mover on this
board, neither mover has a legal square on the final board. -/
theorem playout_loop_spec (env : Nat → List (List Int) × Nat)
    (henv : ∀ t, ValidSchedule (env t).1) :
    ∀ (fuel t : Nat) (board : OthelloBitBoard) (player : Int) (passCount : Nat)
      (hist : List (OthelloBitBoard × Int × (Int × Int))),
      passCount ≤ 1 → 2 * (64 - popcount64 (occupied board)) + 2 ≤ fuel + passCount →
      ∃ fin new, playout_loop env fuel t board player passCount hist = some (fin, hist ++ new) ∧
        popcount64 (occupied fin) = popcount64 (occupied board) + new.length ∧
        (∀ e ∈ new, DrawnFromValidMoves env e ∧ FillsEmptySquare e) ∧
        ((player = BLACK ∨ player = WHITE) →
          (passCount = 1 → NoMoves board (change_turn_cpp player)) →
          NoMoves fin BLACK ∧ NoMoves fin WHITE) := by
  intro fuel
  induction fuel with
  | zero =>
    intro t board player passCount hist hpc hfuel
    omega
  | succ fuel ih =>
    intro t board player passCount hist hpc hfuel
    obtain ⟨moves, hgvm⟩ : ∃ moves, get_valid_moves_cpp board player (env t).1 = some moves :=
      ⟨_, get_valid_moves_cpp_eq board player _ (rows_of_validSchedule (henv t))⟩
    unfold playout_loop
    simp only [hgvm]
    by_cases hnil : moves = []
    · rw [dif_pos hnil]
      have hno : NoMoves board player := noMoves_of_nil (henv t) (hnil ▸ hgvm)
      by_cases hpc1 : passCount + 1 ≥ 2
      · rw [if_pos hpc1]
        refine ⟨board, [], by simp, by simp, by simp, ?_⟩
        intro hp hprev
        have hprev2 := hprev (by omega)
        rcases hp with rfl | rfl
        · exact ⟨hno, hprev2⟩
        · exact ⟨hprev2, hno⟩
      · rw [if_neg hpc1]
        obtain ⟨fin, new, hloop, hcount, hmoves, hterm⟩ :=
          ih (t + 1) board (change_turn_cpp player) (passCount + 1) hist (by omega) (by omega)
        refine ⟨fin, new, hloop, hcount, hmoves, ?_⟩
        intro hp _
        apply hterm (change_turn_cpp_mem hp).1
        intro _
        rw [(change_turn_cpp_mem hp).2]
        exact hno
    · rw [dif_neg hnil]
      have hmem : moves.get ⟨(env t).2 % moves.length,
          Nat.mod_lt _ (List.length_pos.2 hnil)⟩ ∈ moves := List.get_mem _ _ _
      generalize moves.get ⟨(env t).2 % moves.length,
          Nat.mod_lt _ (List.length_pos.2 hnil)⟩ = mv at hmem ⊢
      obtain ⟨hr, hcan⟩ := mem_valid_moves (henv t) hgvm hmem
      have hfill := fillsEmptySquare_of_can_put board player hr hcan
      obtain ⟨-, -, next, hput, -, hpop⟩ := hfill
      have hput2 : put_cpp board player mv = some next := hput
      have hle := popcount64_le (occupied next)
      simp only [hput2]
      obtain ⟨fin, new, hloop, hcount, hmoves, hterm⟩ :=
        ih (t + 1) next (change_turn_cpp player) 0 (hist ++ [(board, player, mv)])
          (by omega) (by simp only at hpop; omega)
      refine ⟨fin, (board, player, mv) :: new, ?_, ?_, ?_, ?_⟩
      · rw [hloop]; simp
      · rw [hcount, List.length_cons]
        simp only at hpop
        omega
      · intro e he
        rcases List.mem_cons.1 he with rfl | he
        · exact ⟨⟨t, moves, hgvm, hmem⟩, fillsEmptySquare_of_can_put board player hr hcan⟩
        · exact hmoves e he
      · intro hp _
        exact hterm (change_turn_cpp_mem hp).1 (fun h => absurd h (by decide))

/-! ## C19: `single_playout` terminates -/

/-- C19. For every start board (disjoint masks or not), every start mover and
every environment (random draws, schedules of the enumerations), with fuel for
two iterations per empty square and two more the loop of `single_playout`
breaks and a verdict is returned; every move applied was on an empty square
and added exactly that square to the occupied set, so that at most
`64 - popcount(blackBB | whiteBB)` moves are applied. -/
theorem single_playout_terminates (env : Nat → List (List Int) × Nat)
    (henv : ∀ t, ValidSchedule (env t).1) (board : OthelloBitBoard) (player : Int) (fuel : Nat)
    (hfuel : 2 * (64 - popcount64 (occupied board)) + 2 ≤ fuel) :
    ∃ fin hist, playout_run fuel env board player = some (fin, hist) ∧
      single_playout fuel env board player = some (judge fin) ∧
      hist.length ≤ 64 - popcount64 (occupied board) ∧
      popcount64 (occupied fin) = popcount64 (occupied board) + hist.length ∧
      ∀ e ∈ hist, FillsEmptySquare e := by
  obtain ⟨fin, new, hloop, hcount, hmoves, -⟩ :=
    playout_loop_spec env henv fuel 0 board player 0 [] (by omega) (by omega)
  rw [List.nil_append] at hloop
  have hrun : playout_run fuel env board player = some (fin, new) := hloop
  have hle := popcount64_le (occupied fin)
  refine ⟨fin, new, hrun, ?_, by omega, hcount, fun e he => (hmoves e he).2⟩
  unfold single_playout
  rw [hrun]

/-- C19 on the initial board: 60 empty squares, fuel 122. -/
theorem single_playout_terminates_witness :
    2 * (64 - popcount64 (occupied initial_board_cpp)) + 2 ≤ 122 ∧
    ∃ fin hist, playout_run 122 (fun t => (oneWorker, t)) initial_board_cpp BLACK =
        some (fin, hist) ∧
      single_playout 122 (fun t => (oneWorker, t)) initial_board_cpp BLACK = some (judge fin) ∧
      hist.length ≤ 64 - popcount64 (occupied initial_board_cpp) ∧
      popcount64 (occupied fin) = popcount64 (occupied initial_board_cpp) + hist.length ∧
      ∀ e ∈ hist, FillsEmptySquare e :=
  ⟨by decide,
    single_playout_terminates (fun t => (oneWorker, t))
      (fun _ => (by decide : ValidSchedule oneWorker)) initial_board_cpp
      BLACK 122 (by decide)⟩

/-! ## C20: the playout stops on a terminal board -/

/-- C20. For every start board, every start mover in {BLACK, WHITE} and every
environment, the board on which the loop of `single_playout` breaks has no
legal square for BLACK and none for WHITE (`get_valid_moves_cpp` returns the
empty list for both, under every schedule), and every move applied during the
playout was a member of the list that `get_valid_moves_cpp` returned for the
mover who played it on the board it was played on. -/
theorem single_playout_stops_terminal (env : Nat → List (List Int) × Nat)
    (henv : ∀ t, ValidSchedule (env t).1) (board : OthelloBitBoard) (player : Int)
    (hp : player = BLACK ∨ player = WHITE) (fuel : Nat)
    (hfuel : 2 * (64 - popcount64 (occupied board)) + 2 ≤ fuel) :
    ∃ fin hist, playout_run fuel env board player = some (fin, hist) ∧
      (∀ sched : List (List Int), ValidSchedule sched →
        get_valid_moves_cpp fin BLACK sched = some [] ∧
        get_valid_moves_cpp fin WHITE sched = some []) ∧
      ∀ e ∈ hist, ∃ (t : Nat) (moves : List (Int × Int)),
        get_valid_moves_cpp e.1 e.2.1 (env t).1 = some moves ∧ e.2.2 ∈ moves := by
  obtain ⟨fin, new, hloop, -, hmoves, hterm⟩ :=
    playout_loop_spec env henv fuel 0 board player 0 [] (by omega) (by omega)
  rw [List.nil_append] at hloop
  obtain ⟨hB, hW⟩ := hterm hp (fun h => absurd h (by decide))
  exact ⟨fin, new, hloop, fun sched hs => ⟨hB sched hs, hW sched hs⟩,
    fun e he => (hmoves e he).1⟩

/-- C20 on the initial board with BLACK to start. -/
theorem single_playout_stops_terminal_witness :
    (BLACK = BLACK ∨ BLACK = WHITE) ∧
    2 * (64 - popcount64 (occupied initial_board_cpp)) + 2 ≤ 122 ∧
    ∃ fin hist, playout_run 122 (fun t => (oneWorker, 3 * t)) initial_board_cpp BLACK =
        some (fin, hist) ∧
      (∀ sched : List (List Int), ValidSchedule sched →
        get_valid_moves_cpp fin BLACK sched = some [] ∧
        get_valid_moves_cpp fin WHITE sched = some []) ∧
      ∀ e ∈ hist, ∃ (t : Nat) (moves : List (Int × Int)),
        get_valid_moves_cpp e.1 e.2.1 ((fun t => (oneWorker, 3 * t)) t).1 = some moves ∧
          e.2.2 ∈ moves :=
  ⟨Or.inl rfl, by decide,
    single_playout_stops_terminal (fun t => (oneWorker, 3 * t))
      (fun _ => (by decide : ValidSchedule oneWorker)) initial_board_cpp BLACK (Or.inl rfl) 122 (by decide)⟩

/-! ## The quotient in double precision -/

theorem round_half_even_cases (x : ℚ) :
    round_half_even x = ⌊x⌋ ∨ (round_half_even x = ⌊x⌋ + 1 ∧ (1 : ℚ) / 2 ≤ x - ⌊x⌋) := by
  unfold round_half_even
  simp only
  split
  · exact Or.inl rfl
  · rename_i h1
    have h1' : (1 : ℚ) / 2 ≤ x - ⌊x⌋ := not_lt.1 h1
    split
    · exact Or.inr ⟨rfl, h1'⟩
    · split
      · exact Or.inl rfl
      · exact Or.inr ⟨rfl, h1'⟩

theorem round_half_even_floor_imp (x : ℚ) (h : round_half_even x = ⌊x⌋) :
    x - ⌊x⌋ ≤ 1 / 2 := by
  unfold round_half_even at h
  simp only at h
  split at h
  · rename_i h1; exact le_of_lt h1
  · split at h
    · omega
    · rename_i h1 h2
      exact not_lt.1 h2

theorem abs_round_half_even_sub (x : ℚ) : |(round_half_even x : ℚ) - x| ≤ 1 / 2 := by
  have hf1 := Int.floor_le x
  have hf2 := Int.lt_floor_add_one x
  rcases round_half_even_cases x with h | ⟨h, hr⟩
  · have := round_half_even_floor_imp x h
    rw [h, abs_le]
    constructor <;> linarith
  · rw [h, abs_le]
    push_cast
    constructor <;> linarith

theorem round_half_even_le {x : ℚ} {n : Int} (h : x ≤ n) : round_half_even x ≤ n := by
  have hf : ⌊x⌋ ≤ n := Int.floor_le_floor h |>.trans (by rw [Int.floor_intCast])
  rcases round_half_even_cases x with h1 | ⟨h1, hr⟩
  · rw [h1]; exact hf
  · rw [h1]
    by_contra hlt
    have hn : n = ⌊x⌋ := by omega
    have : x ≤ (⌊x⌋ : ℚ) := by rw [← hn]; exact h
    linarith

theorem le_round_half_even {x : ℚ} {n : Int} (h : (n : ℚ) ≤ x) : n ≤ round_half_even x := by
  have hf : n ≤ ⌊x⌋ := Int.le_floor.2 h
  rcases round_half_even_cases x with h1 | ⟨h1, _⟩ <;> rw [h1] <;> omega

theorem floor_log2_spec {q : ℚ} (hq : q ≠ 0) :
    (2 : ℚ) ^ floor_log2 q ≤ |q| ∧ |q| < (2 : ℚ) ^ (floor_log2 q + 1) := by
  have ha : q.num.natAbs ≠ 0 := by
    simpa using hq
  have hb : q.den ≠ 0 := q.den_nz
  have hq' : |q| = (q.num.natAbs : ℚ) / (q.den : ℚ) := by
    rw [Rat.abs_def, Rat.divInt_eq_div, Int.cast_natCast, Int.cast_natCast]
  have h1 := Nat.log2_self_le ha
  have h2 := @Nat.lt_log2_self q.num.natAbs
  have h3 := Nat.log2_self_le hb
  have h4 := @Nat.lt_log2_self q.den
  have hbpos : (0 : ℚ) < (q.den : ℚ) := by exact_mod_cast Nat.pos_of_ne_zero hb
  have two_pos : (0 : ℚ) < 2 := by norm_num
  have hlow : (2 : ℚ) ^ ((q.num.natAbs.log2 : Int) - (q.den.log2 : Int) - 1) < |q| := by
    rw [hq', lt_div_iff₀ hbpos]
    have e : (2 : ℚ) ^ ((q.num.natAbs.log2 : Int) - (q.den.log2 : Int) - 1) =
        (2 : ℚ) ^ q.num.natAbs.log2 / (2 : ℚ) ^ (q.den.log2 + 1) := by
      rw [show ((q.num.natAbs.log2 : Int) - (q.den.log2 : Int) - 1) =
        (q.num.natAbs.log2 : Int) - ((q.den.log2 + 1 : Nat) : Int) by push_cast; ring]
      rw [zpow_sub₀ (ne_of_gt two_pos), zpow_natCast, zpow_natCast]
    rw [e, div_mul_eq_mul_div, div_lt_iff₀ (by positivity)]
    have h1' : ((2 : ℚ) ^ q.num.natAbs.log2) ≤ (q.num.natAbs : ℚ) := by exact_mod_cast h1
    have h4' : (q.den : ℚ) < (2 : ℚ) ^ (q.den.log2 + 1) := by exact_mod_cast h4
    have hapos : (0 : ℚ) < (q.num.natAbs : ℚ) := by exact_mod_cast Nat.pos_of_ne_zero ha
    calc (2 : ℚ) ^ q.num.natAbs.log2 * q.den ≤ q.num.natAbs * q.den :=
          mul_le_mul_of_nonneg_right h1' (le_of_lt hbpos)
      _ < q.num.natAbs * (2 : ℚ) ^ (q.den.log2 + 1) := mul_lt_mul_of_pos_left h4' hapos
  have hhigh : |q| < (2 : ℚ) ^ ((q.num.natAbs.log2 : Int) - (q.den.log2 : Int) + 1) := by
    rw [hq', div_lt_iff₀ hbpos]
    have e : (2 : ℚ) ^ ((q.num.natAbs.log2 : Int) - (q.den.log2 : Int) + 1) =
        (2 : ℚ) ^ (q.num.natAbs.log2 + 1) / (2 : ℚ) ^ q.den.log2 := by
      rw [show ((q.num.natAbs.log2 : Int) - (q.den.log2 : Int) + 1) =
        ((q.num.natAbs.log2 + 1 : Nat) : Int) - (q.den.log2 : Int) by push_cast; ring]
      rw [zpow_sub₀ (ne_of_gt two_pos), zpow_natCast, zpow_natCast]
    rw [e, div_mul_eq_mul_div, lt_div_iff₀ (by positivity)]
    have h2' : (q.num.natAbs : ℚ) < (2 : ℚ) ^ (q.num.natAbs.log2 + 1) := by exact_mod_cast h2
    have h3' : ((2 : ℚ) ^ q.den.log2) ≤ (q.den : ℚ) := by exact_mod_cast h3
    have hp : (0 : ℚ) < (2 : ℚ) ^ q.den.log2 := by positivity
    calc (q.num.natAbs : ℚ) * (2 : ℚ) ^ q.den.log2
        < (2 : ℚ) ^ (q.num.natAbs.log2 + 1) * (2 : ℚ) ^ q.den.log2 :=
          mul_lt_mul_of_pos_right h2' hp
      _ ≤ (2 : ℚ) ^ (q.num.natAbs.log2 + 1) * q.den :=
          mul_le_mul_of_nonneg_left h3' (by positivity)
  unfold floor_log2
  simp only
  split
  · rename_i h
    exact ⟨h, hhigh⟩
  · rename_i h
    refine ⟨le_of_lt hlow, ?_⟩
    rw [sub_add_cancel]
    exact not_le.1 h

theorem to_double_zero : to_double 0 = 0 := by
  unfold to_double
  simp

theorem to_double_unit {q : ℚ} (h0 : 0 ≤ q) (h1 : q ≤ 1) :
    0 ≤ to_double q ∧ to_double q ≤ 1 := by
  unfold to_double
  by_cases hq : q = 0
  · simp [hq]
  · rw [if_neg hq]
    simp only
    have hspec := floor_log2_spec hq
    rw [abs_of_nonneg h0] at hspec
    have two_pos : (0 : ℚ) < 2 := by norm_num
    have hulp : (0 : ℚ) < (2 : ℚ) ^ (floor_log2 q - 52) := zpow_pos two_pos _
    have he : floor_log2 q ≤ 0 := by
      by_contra hlt
      have : (2 : ℚ) ^ (1 : Int) ≤ (2 : ℚ) ^ floor_log2 q :=
        zpow_le_zpow_right₀ (by norm_num) (by omega)
      norm_num at this
      linarith [hspec.1]
    constructor
    · apply mul_nonneg _ (le_of_lt hulp)
      have : (0 : Int) ≤ round_half_even (q / (2 : ℚ) ^ (floor_log2 q - 52)) :=
        le_round_half_even (by simpa using div_nonneg h0 (le_of_lt hulp))
      exact_mod_cast this
    · have hN : ((2 : ℚ) ^ (floor_log2 q - 52))⁻¹ = (((2 : Int) ^ (52 - floor_log2 q).toNat : Int) : ℚ) := by
        rw [← zpow_neg]
        push_cast
        rw [← zpow_natCast]
        congr 1
        omega
      have hx : q / (2 : ℚ) ^ (floor_log2 q - 52) ≤
          (((2 : Int) ^ (52 - floor_log2 q).toNat : Int) : ℚ) := by
        rw [← hN, div_eq_mul_inv]
        calc q * ((2 : ℚ) ^ (floor_log2 q - 52))⁻¹ ≤ 1 * ((2 : ℚ) ^ (floor_log2 q - 52))⁻¹ :=
              mul_le_mul_of_nonneg_right h1 (inv_nonneg.2 (le_of_lt hulp))
          _ = _ := one_mul _
      have hr := round_half_even_le hx
      have hr' : (round_half_even (q / (2 : ℚ) ^ (floor_log2 q - 52)) : ℚ) ≤
          (((2 : Int) ^ (52 - floor_log2 q).toNat : Int) : ℚ) := by exact_mod_cast hr
      calc (round_half_even (q / (2 : ℚ) ^ (floor_log2 q - 52)) : ℚ) * (2 : ℚ) ^ (floor_log2 q - 52)
          ≤ (((2 : Int) ^ (52 - floor_log2 q).toNat : Int) : ℚ) * (2 : ℚ) ^ (floor_log2 q - 52) :=
            mul_le_mul_of_nonneg_right hr' (le_of_lt hulp)
        _ = 1 := by rw [← hN]; exact inv_mul_cancel₀ (ne_of_gt hulp)

theorem floor_log2_one : floor_log2 1 = 0 := by
  have hspec := floor_log2_spec (q := 1) (by norm_num)
  rw [abs_one] at hspec
  have h1 : floor_log2 1 ≤ 0 := by
    by_contra hlt
    have : (2 : ℚ) ^ (1 : Int) ≤ (2 : ℚ) ^ floor_log2 1 :=
      zpow_le_zpow_right₀ (by norm_num) (by omega)
    norm_num at this
    linarith [hspec.1]
  have h2 : 0 ≤ floor_log2 1 := by
    by_contra hlt
    have : (2 : ℚ) ^ (floor_log2 1 + 1) ≤ (2 : ℚ) ^ (0 : Int) :=
      zpow_le_zpow_right₀ (by norm_num) (by omega)
    norm_num at this
    linarith [hspec.2]
  omega

theorem to_double_one : to_double 1 = 1 := by
  have h := to_double_unit (q := 1) (by norm_num) (le_refl _)
  apply le_antisymm h.2
  unfold to_double
  rw [if_neg (by norm_num)]
  simp only
  rw [floor_log2_one]
  have hx : (((2 : Int) ^ 52 : Int) : ℚ) ≤ 1 / (2 : ℚ) ^ ((0 : Int) - 52) := by
    norm_num
  have hr := le_round_half_even hx
  have hr' : (((2 : Int) ^ 52 : Int) : ℚ) ≤
      (round_half_even (1 / (2 : ℚ) ^ ((0 : Int) - 52)) : ℚ) := by exact_mod_cast hr
  have hulp : (0 : ℚ) < (2 : ℚ) ^ ((0 : Int) - 52) := zpow_pos (by norm_num) _
  calc (1 : ℚ) = (((2 : Int) ^ 52 : Int) : ℚ) * (2 : ℚ) ^ ((0 : Int) - 52) := by norm_num
    _ ≤ _ := mul_le_mul_of_nonneg_right hr' (le_of_lt hulp)

theorem abs_to_double_sub (q : ℚ) : |to_double q - q| ≤ |q| * (2 : ℚ) ^ (-53 : Int) := by
  unfold to_double
  by_cases hq : q = 0
  · simp [hq]
  · rw [if_neg hq]
    simp only
    have hspec := floor_log2_spec hq
    have two_pos : (0 : ℚ) < 2 := by norm_num
    have hulp : (0 : ℚ) < (2 : ℚ) ^ (floor_log2 q - 52) := zpow_pos two_pos _
    have hrd := abs_round_half_even_sub (q / (2 : ℚ) ^ (floor_log2 q - 52))
    have e1 : (round_half_even (q / (2 : ℚ) ^ (floor_log2 q - 52)) : ℚ) *
        (2 : ℚ) ^ (floor_log2 q - 52) - q =
        ((round_half_even (q / (2 : ℚ) ^ (floor_log2 q - 52)) : ℚ) -
          q / (2 : ℚ) ^ (floor_log2 q - 52)) * (2 : ℚ) ^ (floor_log2 q - 52) := by
      field_simp
    rw [e1, abs_mul, abs_of_pos hulp]
    have e2 : (2 : ℚ) ^ (floor_log2 q - 52) = (2 : ℚ) ^ floor_log2 q * (2 : ℚ) ^ (-53 : Int) * 2 := by
      rw [show floor_log2 q - 52 = floor_log2 q + (-53) + 1 by ring,
        zpow_add₀ (ne_of_gt two_pos), zpow_add₀ (ne_of_gt two_pos), zpow_one]
    have hp53 : (0 : ℚ) < (2 : ℚ) ^ (-53 : Int) := zpow_pos two_pos _
    calc |(round_half_even (q / (2 : ℚ) ^ (floor_log2 q - 52)) : ℚ) -
          q / (2 : ℚ) ^ (floor_log2 q - 52)| * (2 : ℚ) ^ (floor_log2 q - 52)
        ≤ 1 / 2 * (2 : ℚ) ^ (floor_log2 q - 52) :=
          mul_le_mul_of_nonneg_right hrd (le_of_lt hulp)
      _ = (2 : ℚ) ^ floor_log2 q * (2 : ℚ) ^ (-53 : Int) := by rw [e2]; ring
      _ ≤ |q| * (2 : ℚ) ^ (-53 : Int) := mul_le_mul_of_nonneg_right hspec.1 (le_of_lt hp53)

theorem floor_log2_eq {q : ℚ} {e : Int} (h1 : (2 : ℚ) ^ e ≤ |q|) (h2 : |q| < (2 : ℚ) ^ (e + 1)) :
    floor_log2 q = e := by
  have hq : q ≠ 0 := by
    intro h0
    rw [h0, abs_zero] at h1
    exact absurd h1 (not_le.2 (zpow_pos (by norm_num) _))
  have hspec := floor_log2_spec hq
  have ha : floor_log2 q < e + 1 := by
    by_contra hlt
    have : (2 : ℚ) ^ (e + 1) ≤ (2 : ℚ) ^ floor_log2 q :=
      zpow_le_zpow_right₀ (by norm_num) (by omega)
    linarith [hspec.1]
  have hb : e < floor_log2 q + 1 := by
    by_contra hlt
    have : (2 : ℚ) ^ (floor_log2 q + 1) ≤ (2 : ℚ) ^ e :=
      zpow_le_zpow_right₀ (by norm_num) (by omega)
    linarith [hspec.2]
  omega

theorem round_half_even_eq {x : ℚ} {z : Int} (h : |x - (z : ℚ)| < 1 / 2) :
    round_half_even x = z := by
  have h1 := abs_round_half_even_sub x
  have h2 : |((round_half_even x : ℚ)) - (z : ℚ)| < 1 := by
    have e : (round_half_even x : ℚ) - (z : ℚ) = ((round_half_even x : ℚ) - x) + (x - z) := by
      ring
    rw [e]
    calc |((round_half_even x : ℚ) - x) + (x - z)|
        ≤ |(round_half_even x : ℚ) - x| + |x - z| := abs_add _ _
      _ < 1 / 2 + 1 / 2 := add_lt_add_of_le_of_lt h1 h
      _ = 1 := by norm_num
  have h3 : |round_half_even x - z| < 1 := by exact_mod_cast h2
  rw [abs_lt] at h3
  omega

/-- Two wins in five trials: the quotient 2/5 is not a `double`, and the
division returns 7205759403792794 * 2 ^ (-54), a little above 2/5. -/
theorem double_div_two_five :
    double_div 2 5 = 7205759403792794 / 2 ^ 54 ∧ double_div 2 5 ≠ 2 / 5 := by
  have he : floor_log2 ((2 : ℚ) / 5) = -2 := by
    apply floor_log2_eq
    · rw [abs_of_pos (by norm_num)]; norm_num
    · rw [abs_of_pos (by norm_num)]; norm_num
  have hr : round_half_even ((2 : ℚ) / 5 / (2 : ℚ) ^ ((-2 : Int) - 52)) = 7205759403792794 := by
    apply round_half_even_eq
    rw [abs_lt]
    constructor <;> norm_num
  have hval : double_div 2 5 = 7205759403792794 / 2 ^ 54 := by
    unfold double_div to_double
    rw [if_neg (by norm_num)]
    simp only
    push_cast
    rw [he, hr]
    norm_num
  refine ⟨hval, ?_⟩
  rw [hval]
  norm_num

theorem double_div_zero (b : Int) : double_div 0 b = 0 := by
  unfold double_div
  simp [to_double_zero]

theorem double_div_self {b : Int} (hb : b ≠ 0) : double_div b b = 1 := by
  unfold double_div
  have hb' : (b : ℚ) ≠ 0 := by exact_mod_cast hb
  rw [div_self hb', to_double_one]

/-! ## C15: the win rate -/

/-- The trial loop of `simulate_game_cpp`, when every trial returns: the
counter grows by the number of trials whose verdict is the start mover. -/
theorem foldlM_trial_step (fuel : Nat) (envs : Nat → Nat → List (List Int) × Nat)
    (board : OthelloBitBoard) (startPlayer : Int) :
    ∀ (l : List Nat), (∀ i ∈ l, ∃ res, single_playout fuel (envs i) board startPlayer = some res) →
      ∀ winCount : Int,
      l.foldlM (trial_step fuel envs board startPlayer) winCount =
        some (winCount + (l.countP
          (fun i => single_playout fuel (envs i) board startPlayer == some startPlayer) : Nat)) := by
  intro l
  induction l with
  | nil => intro _ winCount; simp
  | cons i l ih =>
    intro hl winCount
    obtain ⟨res, hres⟩ := hl i (List.mem_cons_self _ _)
    have hstep : trial_step fuel envs board startPlayer winCount i =
        some (if res = startPlayer then winCount + 1 else winCount) := by
      unfold trial_step; rw [hres]
    rw [List.foldlM_cons, hstep]
    simp only [bind, Option.bind]
    rw [ih (fun j hj => hl j (List.mem_cons_of_mem _ hj)), List.countP_cons, hres]
    by_cases h : res = startPlayer
    · simp [h]; omega
    · simp [h]

/-- C15. For every board, every start mover, every `num_sim > 0` and every
environment of the trials, with enough fuel for each playout, every trial
returns a verdict and `simulate_game_cpp` returns the quotient
`double(wins) / double(num_sim)`, where `wins` is the number of trials
`i < num_sim` whose `single_playout` returned the start mover: the `double`
nearest to `wins / num_sim`, off by at most the relative error `2 ^ (-53)`.
The value returned lies between 0 and 1. -/
theorem simulate_game_cpp_win_rate (fuel : Nat) (envs : Nat → Nat → List (List Int) × Nat)
    (board : OthelloBitBoard) (startPlayer num_sim : Int) (hn : 0 < num_sim)
    (henv : ∀ i t, ValidSchedule (envs i t).1)
    (hfuel : 2 * (64 - popcount64 (occupied board)) + 2 ≤ fuel) :
    ∃ wins : Nat,
      wins = ((List.range num_sim.toNat).filter
        (fun i => single_playout fuel (envs i) board startPlayer == some startPlayer)).length ∧
      (∀ i : Nat, ∃ res, single_playout fuel (envs i) board startPlayer = some res) ∧
      (wins : Int) ≤ num_sim ∧
      simulate_game_cpp fuel envs board startPlayer num_sim =
        some (double_div (wins : Int) num_sim) ∧
      0 ≤ double_div (wins : Int) num_sim ∧ double_div (wins : Int) num_sim ≤ 1 ∧
      |double_div (wins : Int) num_sim - (wins : ℚ) / (num_sim : ℚ)| ≤
        (wins : ℚ) / (num_sim : ℚ) * (2 : ℚ) ^ (-53 : Int) := by
  have hret : ∀ i : Nat, ∃ res, single_playout fuel (envs i) board startPlayer = some res := by
    intro i
    obtain ⟨fin, new, hloop, -⟩ :=
      playout_loop_spec (envs i) (henv i) fuel 0 board startPlayer 0 [] (by omega) (by omega)
    rw [List.nil_append] at hloop
    refine ⟨judge fin, ?_⟩
    unfold single_playout playout_run
    rw [hloop]
  have hfold := foldlM_trial_step fuel envs board startPlayer (List.range num_sim.toNat)
    (fun i _ => hret i) 0
  rw [zero_add] at hfold
  have hpos : (0 : ℚ) < (num_sim : ℚ) := by exact_mod_cast hn
  have hle : (List.range num_sim.toNat).countP
      (fun i => single_playout fuel (envs i) board startPlayer == some startPlayer) ≤
      num_sim.toNat := by
    have := List.countP_le_length
      (fun i => single_playout fuel (envs i) board startPlayer == some startPlayer)
      (l := List.range num_sim.toNat)
    simpa using this
  generalize hw : (List.range num_sim.toNat).countP
      (fun i => single_playout fuel (envs i) board startPlayer == some startPlayer) = wins
    at hfold hle
  have hwle : (wins : Int) ≤ num_sim := by omega
  have hq0 : (0 : ℚ) ≤ (wins : ℚ) / (num_sim : ℚ) := div_nonneg (Nat.cast_nonneg _) (le_of_lt hpos)
  have hq1 : (wins : ℚ) / (num_sim : ℚ) ≤ 1 := by
    rw [div_le_one hpos]
    exact_mod_cast hwle
  have hdd : double_div (wins : Int) num_sim = to_double ((wins : ℚ) / (num_sim : ℚ)) := by
    unfold double_div
    rw [Int.cast_natCast]
  have hunit := to_double_unit hq0 hq1
  have herr := abs_to_double_sub ((wins : ℚ) / (num_sim : ℚ))
  rw [abs_of_nonneg hq0] at herr
  refine ⟨wins, ?_, hret, hwle, ?_, ?_, ?_, ?_⟩
  · rw [← hw]
    exact List.countP_eq_length_filter _ _
  · unfold simulate_game_cpp
    rw [if_neg (by omega), hfold]
  · rw [hdd]; exact hunit.1
  · rw [hdd]; exact hunit.2
  · rw [hdd]; exact herr

/-- C15 on the initial board with three trials. -/
theorem simulate_game_cpp_win_rate_witness :
    (0 : Int) < 3 ∧ 2 * (64 - popcount64 (occupied initial_board_cpp)) + 2 ≤ 122 ∧
    ∃ wins : Nat,
      wins = ((List.range (3 : Int).toNat).filter
        (fun i => single_playout 122 ((fun i t => (oneWorker, i + t)) i) initial_board_cpp BLACK
          == some BLACK)).length ∧
      (∀ i : Nat, ∃ res,
        single_playout 122 ((fun i t => (oneWorker, i + t)) i) initial_board_cpp BLACK =
          some res) ∧
      (wins : Int) ≤ 3 ∧
      simulate_game_cpp 122 (fun i t => (oneWorker, i + t)) initial_board_cpp BLACK 3 =
        some (double_div (wins : Int) 3) ∧
      0 ≤ double_div (wins : Int) 3 ∧ double_div (wins : Int) 3 ≤ 1 ∧
      |double_div (wins : Int) 3 - (wins : ℚ) / ((3 : Int) : ℚ)| ≤
        (wins : ℚ) / ((3 : Int) : ℚ) * (2 : ℚ) ^ (-53 : Int) :=
  ⟨by decide, by decide,
    simulate_game_cpp_win_rate 122 (fun i t => (oneWorker, i + t)) initial_board_cpp BLACK 3
      (by decide) (fun _ _ => (by decide : ValidSchedule oneWorker)) (by decide)⟩

/-! ## C16: terminal boards -/

/-- On a board without a legal square for the mover and for the other mover,
the loop passes twice and breaks on the input board, without a move. -/
theorem playout_run_of_noMoves (env : Nat → List (List Int) × Nat)
    (henv : ∀ t, ValidSchedule (env t).1) (board : OthelloBitBoard) (player : Int)
    (h1 : NoMoves board player) (h2 : NoMoves board (change_turn_cpp player))
    (fuel : Nat) (hfuel : 2 ≤ fuel) :
    playout_run fuel env board player = some (board, []) := by
  obtain ⟨f, rfl⟩ : ∃ f, fuel = f + 2 := ⟨fuel - 2, by omega⟩
  have e0 := h1 (env 0).1 (henv 0)
  have e1 := h2 (env (0 + 1)).1 (henv (0 + 1))
  unfold playout_run
  unfold playout_loop
  simp only [e0]
  unfold playout_loop
  simp only [e1]
  simp

/-- C16. On a board on which `get_valid_moves_cpp` is empty for BLACK and for
WHITE, for every start mover in {BLACK, WHITE}, every `num_sim > 0` and every
environment, each playout breaks on the input board without a move and returns
the disc comparison of that board (BLACK if `blackBB` has more bits, WHITE if
fewer, 0 if as many), and `simulate_game_cpp` returns 1 if the start mover has
strictly more discs than the opponent and 0 otherwise, whatever `num_sim`. -/
theorem simulate_game_cpp_terminal (fuel : Nat) (envs : Nat → Nat → List (List Int) × Nat)
    (board : OthelloBitBoard) (startPlayer num_sim : Int)
    (hB : get_valid_moves_cpp board BLACK oneWorker = some [])
    (hW : get_valid_moves_cpp board WHITE oneWorker = some [])
    (hp : startPlayer = BLACK ∨ startPlayer = WHITE) (hn : 0 < num_sim)
    (henv : ∀ i t, ValidSchedule (envs i t).1) (hfuel : 2 ≤ fuel) :
    (∀ i : Nat, playout_run fuel (envs i) board startPlayer = some (board, []) ∧
      single_playout fuel (envs i) board startPlayer =
        some (if popcount64 board.blackBB > popcount64 board.whiteBB then BLACK
          else if popcount64 board.blackBB < popcount64 board.whiteBB then WHITE else 0)) ∧
    simulate_game_cpp fuel envs board startPlayer num_sim =
      some (if popcount64 (maskOf board startPlayer) >
          popcount64 (maskOf board (opponentOf startPlayer)) then 1 else 0) := by
  have hone : ValidSchedule oneWorker := by decide
  have nB : NoMoves board BLACK := noMoves_of_nil hone hB
  have nW : NoMoves board WHITE := noMoves_of_nil hone hW
  have hrun : ∀ i : Nat, playout_run fuel (envs i) board startPlayer = some (board, []) := by
    intro i
    rcases hp with rfl | rfl
    · exact playout_run_of_noMoves (envs i) (henv i) board BLACK nB nW fuel hfuel
    · exact playout_run_of_noMoves (envs i) (henv i) board WHITE nW nB fuel hfuel
  have hsingle : ∀ i : Nat, single_playout fuel (envs i) board startPlayer =
      some (judge board) := by
    intro i
    unfold single_playout
    rw [hrun i]
  refine ⟨fun i => ⟨hrun i, hsingle i⟩, ?_⟩
  have hfold := foldlM_trial_step fuel envs board startPlayer (List.range num_sim.toNat)
    (fun i _ => ⟨_, hsingle i⟩) 0
  have hnum : ((num_sim.toNat : Int) : ℚ) = (num_sim : ℚ) := by
    rw [Int.toNat_of_nonneg (le_of_lt hn)]
  have hpos : (num_sim : ℚ) ≠ 0 := by
    have : (0 : ℚ) < (num_sim : ℚ) := by exact_mod_cast hn
    exact ne_of_gt this
  have hwb : WHITE ≠ BLACK := by decide
  unfold simulate_game_cpp
  rw [if_neg (by omega), hfold]
  simp only [hsingle]
  by_cases hwin : judge board = startPlayer
  · have hall : (List.range num_sim.toNat).countP
        (fun _ => some (judge board) == some startPlayer) = num_sim.toNat := by
      rw [hwin]
      simp
    have hmore : popcount64 (maskOf board startPlayer) >
        popcount64 (maskOf board (opponentOf startPlayer)) := by
      unfold judge at hwin
      rcases hp with rfl | rfl
      · simp only [maskOf, opponentOf, if_true, if_neg hwb]
        by_contra hle
        simp only at hwin
        rw [if_neg hle] at hwin
        split at hwin <;> revert hwin <;> decide
      · simp only [maskOf, opponentOf, if_true, if_neg hwb]
        simp only at hwin
        split at hwin
        · exact absurd hwin (by decide)
        · split at hwin
          · assumption
          · exact absurd hwin (by decide)
    rw [hall, if_pos hmore, zero_add, Int.toNat_of_nonneg (le_of_lt hn),
      double_div_self (ne_of_gt hn)]
  · have hnone : (List.range num_sim.toNat).countP
        (fun _ => some (judge board) == some startPlayer) = 0 := by
      rw [List.countP_eq_zero]
      intro a _
      simpa using hwin
    have hnot : ¬ popcount64 (maskOf board startPlayer) >
        popcount64 (maskOf board (opponentOf startPlayer)) := by
      intro hmore
      apply hwin
      unfold judge
      rcases hp with rfl | rfl
      · simp only [maskOf, opponentOf, if_true, if_neg hwb] at hmore
        simp only
        rw [if_pos hmore]
      · simp only [maskOf, opponentOf, if_true, if_neg hwb] at hmore
        simp only
        rw [if_neg (by omega), if_pos hmore]
    rw [hnone, if_neg hnot]
    simp [double_div_zero]

/-- C16 on a board with two black discs and no white disc, BLACK to start, four trials. -/
theorem simulate_game_cpp_terminal_witness :
    get_valid_moves_cpp { blackBB := 3, whiteBB := 0 } BLACK oneWorker = some [] ∧
    get_valid_moves_cpp { blackBB := 3, whiteBB := 0 } WHITE oneWorker = some [] ∧
    (∀ i : Nat,
      playout_run 2 ((fun i t => (oneWorker, i + t)) i) { blackBB := 3, whiteBB := 0 } BLACK =
        some ({ blackBB := 3, whiteBB := 0 }, []) ∧
      single_playout 2 ((fun i t => (oneWorker, i + t)) i) { blackBB := 3, whiteBB := 0 } BLACK =
        some (if popcount64 (3 : Nat) > popcount64 (0 : Nat) then BLACK
          else if popcount64 (3 : Nat) < popcount64 (0 : Nat) then WHITE else 0)) ∧
    simulate_game_cpp 2 (fun i t => (oneWorker, i + t)) { blackBB := 3, whiteBB := 0 } BLACK 4 =
      some (if popcount64 (maskOf { blackBB := 3, whiteBB := 0 } BLACK) >
          popcount64 (maskOf { blackBB := 3, whiteBB := 0 } (opponentOf BLACK)) then 1 else 0) :=
  ⟨by decide, by decide,
    simulate_game_cpp_terminal 2 (fun i t => (oneWorker, i + t)) { blackBB := 3, whiteBB := 0 }
      BLACK 4 (by decide) (by decide) (Or.inl rfl) (by decide)
      (fun _ _ => (by decide : ValidSchedule oneWorker)) (by decide)⟩

end COthello
